import Mathlib

/-!
Shallow embedding of `trueskill_project/trueskill_simple/core.py`:
a pedagogical TrueSkill rating engine (Gaussian EP over win/loss/draw
truncation factors).  Python floats are modelled as real numbers, the
`math.erf` primitive by its defining integral, in-place mutation of
`Player` objects by explicit state passing, and Python exceptions
(`ValueError`, `ZeroDivisionError`, `math domain error`) by `Except`.
-/

open scoped Real

noncomputable section

/-- The constant `_SQRT_2PI = math.sqrt(2.0 * math.pi)` from the source. -/
def _SQRT_2PI : ℝ := Real.sqrt (2 * Real.pi)

/-- The constant `_SQRT2 = math.sqrt(2.0)` from the source. -/
def _SQRT2 : ℝ := Real.sqrt 2

/-- `_phi(x)`: standard normal density, `exp(-0.5*x*x) / _SQRT_2PI`. -/
def _phi (x : ℝ) : ℝ := Real.exp (-0.5 * x * x) / _SQRT_2PI

/-- Mathematical meaning of the Python primitive `math.erf`. -/
def erf (x : ℝ) : ℝ := 2 / Real.sqrt Real.pi * ∫ u in (0:ℝ)..x, Real.exp (-(u ^ 2))

/-- `_Phi(x)`: standard normal CDF, `0.5 * (1.0 + erf(x / _SQRT2))`. -/
def _Phi (x : ℝ) : ℝ := 0.5 * (1 + erf (x / _SQRT2))

/-- `_v_truncate(t)`: win/loss EP moment with the far-tail guard. -/
def _v_truncate (t : ℝ) : ℝ :=
  if _Phi t < 1e-12 then -t else _phi t / _Phi t

/-- `_w_truncate(t) = v * (v + t)` with `v = _v_truncate(t)`. -/
def _w_truncate (t : ℝ) : ℝ :=
  _v_truncate t * (_v_truncate t + t)

/-- `_v_draw(t, eps)`: draw EP first moment with the vanishing-denominator guard. -/
def _v_draw (t eps : ℝ) : ℝ :=
  if _Phi (eps - t) - _Phi (-eps - t) < 1e-12 then 0
  else (_phi (-eps - t) - _phi (eps - t)) / (_Phi (eps - t) - _Phi (-eps - t))

/-- `_w_draw(t, eps)`: draw EP second moment with the same guard. -/
def _w_draw (t eps : ℝ) : ℝ :=
  if _Phi (eps - t) - _Phi (-eps - t) < 1e-12 then 0
  else
    _v_draw t eps * _v_draw t eps +
      ((eps - t) * _phi (eps - t) - (-eps - t) * _phi (-eps - t)) /
        (_Phi (eps - t) - _Phi (-eps - t))

/-- One state of the bisection in `_draw_margin`: `n` remaining iterations on
the bracket `(lo, hi)`; each step moves `lo` up when `_Phi(mid) < target`,
otherwise moves `hi` down. -/
def drawSearch (target : ℝ) : ℕ → ℝ × ℝ → ℝ × ℝ
  | 0, s => s
  | n + 1, s =>
    let mid := (s.1 + s.2) / 2
    if _Phi mid < target then drawSearch target n (mid, s.2)
    else drawSearch target n (s.1, mid)

/-- `_draw_margin(beta, draw_probability)`: 80-iteration inverse-CDF bisection
on `[-10, 10]` for `z` with `Phi(z) = (draw_probability+1)/2`, then
`eps = z * sqrt(2) * beta`. -/
def _draw_margin (beta draw_probability : ℝ) : ℝ :=
  let target := (draw_probability + 1) / 2
  let s := drawSearch target 80 (-10, 10)
  (s.1 + s.2) / 2 * Real.sqrt 2 * beta

/-- The `Player` dataclass: a named, mutable skill belief. -/
structure Player where
  name : String
  mu : ℝ
  sigma : ℝ

/-- The `EPUpdateReport` dataclass; its Python `dict` fields become
insertion-ordered association lists. -/
structure EPUpdateReport where
  is_draw : Bool
  eps : ℝ
  c : ℝ
  t : ℝ
  v : ℝ
  w : ℝ
  team_winner : List String
  team_loser : List String
  delta_mu : List (String × ℝ)
  new_sigma : List (String × ℝ)

instance : Inhabited EPUpdateReport :=
  ⟨⟨false, 0, 0, 0, 0, 0, [], [], [], []⟩⟩

/-- Python `dict` assignment `d[k] = x`: overwrite the value at an existing
key in place, else append the new binding at the end. -/
def dictInsert (d : List (String × ℝ)) (k : String) (x : ℝ) : List (String × ℝ) :=
  match d with
  | [] => [(k, x)]
  | (k', y) :: rest => if k' = k then (k, x) :: rest else (k', y) :: dictInsert rest k x

/-- The `TrueSkillEnv` object: configuration fields plus the derived `eps`
assigned in `__init__`. -/
structure Env where
  mu0 : ℝ
  sigma0 : ℝ
  beta : ℝ
  tau : ℝ
  draw_probability : ℝ
  trust : ℝ
  eps : ℝ

/-- `TrueSkillEnv.__init__`: store the configuration and compute
`eps = _draw_margin(beta, draw_probability)` once. -/
def mkEnv (mu0 sigma0 beta tau draw_probability trust : ℝ) : Env :=
  ⟨mu0, sigma0, beta, tau, draw_probability, trust, _draw_margin beta draw_probability⟩

/-- The default construction `TrueSkillEnv()`. -/
def defaultEnv : Env := mkEnv 25 (25 / 3) (25 / 6) (25 / 300) 0.10 0

/-- `TrueSkillEnv.make_player`. -/
def make_player (e : Env) (name : String) : Player :=
  ⟨name, e.mu0, e.sigma0⟩

/-- `TrueSkillEnv._apply_drift`: `sigma <- sqrt(sigma^2 + tau^2)`. -/
def _apply_drift (e : Env) (p : Player) : Player :=
  { p with sigma := Real.sqrt (p.sigma * p.sigma + e.tau * e.tau) }

/-- One player's belief update inside `_rate_two_teams`; `sign` is `1` on the
winner team and `-1` on the loser team. -/
def updatePlayer (c v w sign : ℝ) (p : Player) : Player :=
  let sigma2 := p.sigma * p.sigma
  { p with
    mu := p.mu + sign * (sigma2 / c * v),
    sigma := Real.sqrt (max 1e-9 (sigma2 * (1 - sigma2 / (c * c) * w))) }

/-- The per-team loop of `_rate_two_teams`: update each player in order,
threading the `delta_mu` / `new_sigma` dictionaries. -/
def updateTeam (c v w sign : ℝ) :
    List Player → List (String × ℝ) → List (String × ℝ) →
      List Player × List (String × ℝ) × List (String × ℝ)
  | [], dm, ns => ([], dm, ns)
  | p :: rest, dm, ns =>
    let p' := updatePlayer c v w sign p
    let r := updateTeam c v w sign rest
      (dictInsert dm p.name (p'.mu - p.mu)) (dictInsert ns p.name p'.sigma)
    (p' :: r.1, r.2)

/-- `sum(p.mu for p in team)`. -/
def teamMu (team : List Player) : ℝ := (team.map Player.mu).sum

/-- `sum(p.sigma * p.sigma for p in team)`. -/
def teamSig2 (team : List Player) : ℝ := (team.map fun p => p.sigma * p.sigma).sum

/-- The per-team contribution to `perf_noise`: `beta^2 + trust * sigma^2`
summed over the team. -/
def perfNoise (e : Env) (team : List Player) : ℝ :=
  (team.map fun p => e.beta * e.beta + e.trust * (p.sigma * p.sigma)).sum

/-- The argument of the `sqrt` defining `c` in `_rate_two_teams`. -/
def cArg (e : Env) (team_winner team_loser : List Player) : ℝ :=
  teamSig2 team_winner + teamSig2 team_loser + (perfNoise e team_winner + perfNoise e team_loser)

/-- `TrueSkillEnv._rate_two_teams`: the pairwise EP update.  Returns the two
updated teams and, when `collect`, the diagnostic report.  `math.sqrt` of a
negative argument and float division by zero become `Except.error`. -/
def _rate_two_teams (e : Env) (team_winner team_loser : List Player)
    (is_draw collect : Bool) :
    Except String (List Player × List Player × Option EPUpdateReport) :=
  let s := cArg e team_winner team_loser
  if s < 0 then .error "math domain error"
  else
    let c := Real.sqrt s
    if c = 0 then .error "float division by zero"
    else
      let t := (teamMu team_winner - teamMu team_loser) / c
      let v := if is_draw then _v_draw t (e.eps / c) else _v_truncate t
      let w := if is_draw then _w_draw t (e.eps / c) else _w_truncate t
      let rw := updateTeam c v w 1 team_winner [] []
      let rl := updateTeam c v w (-1) team_loser rw.2.1 rw.2.2
      .ok (rw.1, rl.1,
        if collect then
          some
            { is_draw := is_draw, eps := e.eps, c := c, t := t, v := v, w := w,
              team_winner := team_winner.map Player.name,
              team_loser := team_loser.map Player.name,
              delta_mu := rl.2.1, new_sigma := rl.2.2 }
        else none)

/-- `sorted(range(len(ranks)), key=lambda i: ranks[i])` (a stable sort). -/
def rankOrder (ranks : List Int) : List Nat :=
  (List.range ranks.length).mergeSort fun i j =>
    decide (ranks.getD i 0 ≤ ranks.getD j 0)

/-- The free-for-all loop of `rate`: walk the sorted index list, running the
pairwise update on each adjacent pair and threading the team state. -/
def ffa (e : Env) (state : List (List Player)) (ranks : List Int)
    (order : List Nat) (collect : Bool) :
    Except String (List (List Player) × List EPUpdateReport) :=
  match order with
  | a :: b :: rest =>
    match _rate_two_teams e (state.getD a []) (state.getD b [])
        (decide (ranks.getD a 0 = ranks.getD b 0)) collect with
    | .error msg => .error msg
    | .ok (ta', tb', rep) =>
      match ffa e ((state.set a ta').set b tb') ranks (b :: rest) collect with
      | .error msg => .error msg
      | .ok (st, reps) => .ok (st, rep.toList ++ reps)
  | _ => .ok (state, [])

/-- The drift pass of `rate`: `_apply_drift` on every player of every team. -/
def driftTeams (e : Env) (teams : List (List Player)) : List (List Player) :=
  teams.map fun team => team.map (_apply_drift e)

/-- `TrueSkillEnv.rate`: validate, apply drift to every player, then either
the two-team update or the adjacent-pairs free-for-all decomposition. -/
def rate (e : Env) (teams : List (List Player)) (ranks : List Int)
    (return_report : Bool) :
    Except String (List (List Player) × Option (List EPUpdateReport)) :=
  if teams.length ≠ ranks.length then .error "teams and ranks must have same length"
  else if teams.length < 2 then .error "Need at least 2 teams"
  else if 2 < (driftTeams e teams).length then
    match ffa e (driftTeams e teams) ranks (rankOrder ranks) return_report with
    | .error msg => .error msg
    | .ok (st, reps) => .ok (st, if return_report then some reps else none)
  else if ranks.getD 0 0 = ranks.getD 1 0 then
    match _rate_two_teams e ((driftTeams e teams).getD 0 [])
        ((driftTeams e teams).getD 1 []) true return_report with
    | .error msg => .error msg
    | .ok (w', l', rep) =>
      .ok ([w', l'], if return_report then rep.map fun r => [r] else none)
  else if ranks.getD 0 0 < ranks.getD 1 0 then
    match _rate_two_teams e ((driftTeams e teams).getD 0 [])
        ((driftTeams e teams).getD 1 []) false return_report with
    | .error msg => .error msg
    | .ok (w', l', rep) =>
      .ok ([w', l'], if return_report then rep.map fun r => [r] else none)
  else
    match _rate_two_teams e ((driftTeams e teams).getD 1 [])
        ((driftTeams e teams).getD 0 []) false return_report with
    | .error msg => .error msg
    | .ok (w', l', rep) =>
      .ok ([l', w'], if return_report then rep.map fun r => [r] else none)

end

/-! ### Analytic facts about the Gaussian helpers -/

open MeasureTheory Filter
open scoped Topology

lemma _phi_pos (x : ℝ) : 0 < _phi x :=
  div_pos (Real.exp_pos _) (Real.sqrt_pos.2 (by positivity))

lemma continuous_gauss : Continuous fun u : ℝ => Real.exp (-(u ^ 2)) :=
  Real.continuous_exp.comp (continuous_pow 2).neg

lemma _Phi_zero : _Phi 0 = 1 / 2 := by
  unfold _Phi
  rw [zero_div]
  unfold erf
  rw [intervalIntegral.integral_same, mul_zero]
  norm_num

lemma hasDerivAt_Phi (x : ℝ) : HasDerivAt _Phi (_phi x) x := by
  have herf : HasDerivAt erf (2 / Real.sqrt Real.pi * Real.exp (-((x / _SQRT2) ^ 2)))
      (x / _SQRT2) := by
    unfold erf
    exact ((continuous_gauss.integral_hasStrictDerivAt 0 (x / _SQRT2)).hasDerivAt).const_mul _
  have h1 : HasDerivAt (fun y : ℝ => y / _SQRT2) (1 / _SQRT2) x := by
    simpa using (hasDerivAt_id x).div_const _SQRT2
  have h2 := herf.comp x h1
  have h3 : HasDerivAt _Phi
      (0.5 * (2 / Real.sqrt Real.pi * Real.exp (-((x / _SQRT2) ^ 2)) * (1 / _SQRT2))) x := by
    unfold _Phi
    exact (h2.const_add 1).const_mul 0.5
  convert h3 using 1
  unfold _phi _SQRT_2PI
  have hsq : (x / _SQRT2) ^ 2 = x ^ 2 / 2 := by
    unfold _SQRT2
    rw [div_pow, Real.sq_sqrt (by norm_num : (0:ℝ) ≤ 2)]
  have hmp : Real.sqrt (2 * Real.pi) = _SQRT2 * Real.sqrt Real.pi := by
    unfold _SQRT2
    rw [Real.sqrt_mul (by norm_num : (0:ℝ) ≤ 2)]
  rw [hsq, hmp]
  have hs2 : (0:ℝ) < _SQRT2 := Real.sqrt_pos.2 (by norm_num)
  have hsp : (0:ℝ) < Real.sqrt Real.pi := Real.sqrt_pos.2 Real.pi_pos
  have hexp : Real.exp (-0.5 * x * x) = Real.exp (-(x ^ 2) / 2) := by
    congr 1; ring
  rw [hexp]
  field_simp
  ring

/-- `w(t) >= 0` for every `t`: in the guarded branch `w = (-t)*(-t+t) = 0`,
otherwise `v > 0` and `v + t = (phi t + t * Phi t) / Phi t >= 0` by the
Mills-ratio inequality `0 <= phi t + t * Phi t`, itself obtained from
`Phi t = ∫ s in Iic t, phi s` and `∫ s in Iic t, s * phi s = -phi t`. -/
lemma w_truncate_nonneg (t : ℝ) : 0 ≤ _w_truncate t := by
  have hphiInt : Integrable _phi := by
    have h := integrable_exp_neg_mul_sq (by norm_num : (0:ℝ) < 1/2)
    have hEq : _phi = fun x => Real.exp (-(1/2) * x ^ 2) * (1 / _SQRT_2PI) := by
      funext x
      unfold _phi
      rw [div_eq_mul_one_div]
      congr 2
      ring
    rw [hEq]
    exact h.mul_const _
  have hxphiInt : Integrable fun x => x * _phi x := by
    have h := integrable_mul_exp_neg_mul_sq (by norm_num : (0:ℝ) < 1/2)
    have hEq : (fun x => x * _phi x)
        = fun x => x * Real.exp (-(1/2) * x ^ 2) * (1 / _SQRT_2PI) := by
      funext x
      unfold _phi
      have h2 : Real.exp (-0.5 * x * x) = Real.exp (-(1/2) * x ^ 2) := by
        congr 1; ring
      rw [h2]
      ring
    rw [hEq]
    exact h.mul_const _
  have hphiBot : Tendsto _phi atBot (𝓝 0) := by
    have hsq : Tendsto (fun x : ℝ => x * x) atBot atTop :=
      Tendsto.atBot_mul_atBot tendsto_id tendsto_id
    have harg : Tendsto (fun x : ℝ => -0.5 * x * x) atBot atBot := by
      have h := (tendsto_const_mul_atBot_of_neg (by norm_num : (-0.5:ℝ) < 0)).2 hsq
      simpa [mul_assoc] using h
    have hexp : Tendsto (fun x : ℝ => Real.exp (-0.5 * x * x)) atBot (𝓝 0) :=
      Real.tendsto_exp_atBot.comp harg
    have h := hexp.div_const _SQRT_2PI
    rw [zero_div] at h
    unfold _phi
    exact h
  have hInt : Integrable fun x : ℝ => Real.exp (-(x ^ 2)) := by
    have h := integrable_exp_neg_mul_sq (by norm_num : (0:ℝ) < 1)
    simpa using h
  have hgauss : ∫ x in Set.Iic (0:ℝ), Real.exp (-(x ^ 2)) = Real.sqrt Real.pi / 2 := by
    have hsplit : ((∫ x in Set.Iic (0:ℝ), Real.exp (-(x ^ 2)))
          + ∫ x in Set.Ioi (0:ℝ), Real.exp (-(x ^ 2)))
        = ∫ x : ℝ, Real.exp (-(x ^ 2)) :=
      intervalIntegral.integral_Iic_add_Ioi hInt.integrableOn hInt.integrableOn
    have hIoi : ∫ x in Set.Ioi (0:ℝ), Real.exp (-(x ^ 2)) = Real.sqrt Real.pi / 2 := by
      have h := integral_gaussian_Ioi 1
      simpa using h
    have htot : ∫ x : ℝ, Real.exp (-(x ^ 2)) = Real.sqrt Real.pi := by
      have h := integral_gaussian 1
      simpa using h
    rw [hIoi, htot] at hsplit
    linarith
  have herfBot : Tendsto erf atBot (𝓝 (-1)) := by
    have h : Tendsto (fun i : ℝ => ∫ x in i..(0:ℝ), Real.exp (-(x ^ 2))) atBot
        (𝓝 (∫ x in Set.Iic (0:ℝ), Real.exp (-(x ^ 2)))) :=
      intervalIntegral_tendsto_integral_Iic 0 hInt.integrableOn
        (tendsto_id : Tendsto id atBot atBot)
    rw [hgauss] at h
    have h2 : Tendsto (fun y : ℝ => 2 / Real.sqrt Real.pi * ∫ u in (0:ℝ)..y, Real.exp (-(u ^ 2)))
        atBot (𝓝 (2 / Real.sqrt Real.pi * -(Real.sqrt Real.pi / 2))) := by
      have h3 : Tendsto (fun y : ℝ => ∫ u in (0:ℝ)..y, Real.exp (-(u ^ 2)))
          atBot (𝓝 (-(Real.sqrt Real.pi / 2))) := by
        have h4 : (fun y : ℝ => ∫ u in (0:ℝ)..y, Real.exp (-(u ^ 2)))
            = fun y : ℝ => -∫ u in y..(0:ℝ), Real.exp (-(u ^ 2)) := by
          funext y
          rw [intervalIntegral.integral_symm]
        rw [h4]
        exact h.neg
      exact h3.const_mul _
    have hval : 2 / Real.sqrt Real.pi * -(Real.sqrt Real.pi / 2) = -1 := by
      have hsp : (0:ℝ) < Real.sqrt Real.pi := Real.sqrt_pos.2 Real.pi_pos
      field_simp
      ring
    rw [hval] at h2
    exact h2
  have hPhiBot : Tendsto _Phi atBot (𝓝 0) := by
    have hs2 : (0:ℝ) < _SQRT2 := Real.sqrt_pos.2 (by norm_num)
    have hdiv : Tendsto (fun x : ℝ => x / _SQRT2) atBot atBot :=
      tendsto_id.atBot_div_const hs2
    have h := (herfBot.comp hdiv).const_add 1
    have h2 := h.const_mul (0.5 : ℝ)
    have hz : (0.5 : ℝ) * (1 + -1) = 0 := by norm_num
    rw [hz] at h2
    exact h2
  have hPhiEq : _Phi t = ∫ s in Set.Iic t, _phi s := by
    have h : ∫ s in Set.Iic t, _phi s = _Phi t - 0 :=
      integral_Iic_of_hasDerivAt_of_tendsto' (fun y _ => hasDerivAt_Phi y)
        hphiInt.integrableOn hPhiBot
    rw [h, sub_zero]
  have hxphiEq : ∫ s in Set.Iic t, s * _phi s = -_phi t := by
    have hderiv : ∀ y : ℝ, HasDerivAt (fun s : ℝ => -_phi s) (y * _phi y) y := by
      intro y
      have h1 : HasDerivAt (fun s : ℝ => -0.5 * s * s) (-y) y := by
        have h := ((hasDerivAt_id y).mul (hasDerivAt_id y)).const_mul (-0.5 : ℝ)
        simp only [mul_one, one_mul, id_eq] at h
        have h2 : (-0.5:ℝ) * (y + y) = -y := by ring
        have h3 : (fun s : ℝ => -0.5 * (s * s)) = fun s : ℝ => -0.5 * s * s := by
          funext s; ring
        rw [h3, h2] at h
        exact h
      have h2 := (h1.exp).div_const _SQRT_2PI
      have h3 := h2.neg
      have heq : -(Real.exp (-0.5 * y * y) * -y / _SQRT_2PI) = y * _phi y := by
        unfold _phi
        ring
      rw [heq] at h3
      have hfun : (fun s : ℝ => -(Real.exp (-0.5 * s * s) / _SQRT_2PI))
          = fun s : ℝ => -_phi s := by
        funext s; unfold _phi; ring
      rw [hfun] at h3
      exact h3
    have htend : Tendsto (fun s : ℝ => -_phi s) atBot (𝓝 0) := by
      have h := hphiBot.neg
      simpa using h
    have h : ∫ s in Set.Iic t, s * _phi s = -_phi t - 0 :=
      integral_Iic_of_hasDerivAt_of_tendsto' (fun y _ => hderiv y)
        hxphiInt.integrableOn htend
    rw [h, sub_zero]
  have hmills : 0 ≤ _phi t + t * _Phi t := by
    have hsub : ∫ s in Set.Iic t, (t - s) * _phi s
        = t * (∫ s in Set.Iic t, _phi s) - ∫ s in Set.Iic t, s * _phi s := by
      have h1 : ∀ s : ℝ, (t - s) * _phi s = t * _phi s - s * _phi s := by
        intro s; ring
      simp only [h1]
      rw [integral_sub (hphiInt.integrableOn.const_mul t) hxphiInt.integrableOn,
        integral_mul_left]
    have hnn : 0 ≤ ∫ s in Set.Iic t, (t - s) * _phi s := by
      apply setIntegral_nonneg measurableSet_Iic
      intro s hs
      exact mul_nonneg (by linarith [hs.out]) (_phi_pos s).le
    rw [hsub, ← hPhiEq, hxphiEq] at hnn
    linarith
  unfold _w_truncate _v_truncate
  split
  · ring_nf
    simp
  · rename_i h
    have hP : 0 < _Phi t := by
      have h12 : (0:ℝ) < 1e-12 := by norm_num
      linarith [not_lt.1 h]
    have hv : 0 < _phi t / _Phi t := div_pos (_phi_pos t) hP
    have hvt : 0 ≤ _phi t / _Phi t + t := by
      rw [div_add' _ _ _ (ne_of_gt hP)]
      exact div_nonneg hmills hP.le
    exact mul_nonneg hv.le hvt

/-! ### Evaluating and comparing the draw-margin bisection -/

lemma draw_margin_def (β p : ℝ) : _draw_margin β p =
    ((drawSearch ((p + 1) / 2) 80 (-10, 10)).1 +
      (drawSearch ((p + 1) / 2) 80 (-10, 10)).2) / 2 * Real.sqrt 2 * β := rfl

lemma drawSearch80 (target : ℝ) (s : ℝ × ℝ) :
    drawSearch target 80 s =
      if _Phi ((s.1 + s.2) / 2) < target then drawSearch target 79 ((s.1 + s.2) / 2, s.2)
      else drawSearch target 79 (s.1, (s.1 + s.2) / 2) := rfl

/-- With `draw_probability = 0` the bisection walks down to
`(-10 * 2 ^ (-79), 0)`, so the margin is a tiny negative multiple of `beta`. -/
lemma draw_margin_zero_eval (β : ℝ) :
    _draw_margin β 0 = -10 / 2 ^ 79 / 2 * Real.sqrt 2 * β := by
  have hlt : ∀ m : ℝ, m < 0 → _Phi m < (0 + 1) / 2 := by
    intro x hx
    rw [show ((0:ℝ) + 1) / 2 = 1 / 2 by norm_num]
    have hs2 : (0:ℝ) < _SQRT2 := Real.sqrt_pos.2 (by norm_num)
    have hx2 : x / _SQRT2 < 0 := div_neg_of_neg_of_pos hx hs2
    have herf : erf (x / _SQRT2) < 0 := by
      unfold erf
      have hpos : 0 < ∫ u in (x / _SQRT2)..(0:ℝ), Real.exp (-(u ^ 2)) := by
        apply intervalIntegral.intervalIntegral_pos_of_pos_on
          (continuous_gauss.intervalIntegrable _ _)
          (fun u _ => Real.exp_pos _) hx2
      have hneg : (∫ u in (0:ℝ)..(x / _SQRT2), Real.exp (-(u ^ 2))) < 0 := by
        rw [intervalIntegral.integral_symm]
        linarith
      have hc : (0:ℝ) < 2 / Real.sqrt Real.pi :=
        div_pos (by norm_num) (Real.sqrt_pos.2 Real.pi_pos)
      exact mul_neg_of_pos_of_neg hc hneg
    unfold _Phi
    nlinarith
  have hlowrec : ∀ (n : ℕ) (l : ℝ), l < 0 →
      drawSearch ((0 + 1) / 2) n (l, 0) = (l / 2 ^ n, 0) := by
    intro n
    induction n with
    | zero =>
      intro l _
      simp [drawSearch]
    | succ n ih =>
      intro l hl
      have hmid : _Phi ((l + 0) / 2) < (0 + 1) / 2 := by
        apply hlt
        rw [add_zero]
        linarith
      show drawSearch _ (n + 1) (l, 0) = _
      rw [drawSearch]
      simp only []
      rw [if_pos hmid]
      have hrec := ih (l / 2) (by linarith)
      show drawSearch _ n ((l + 0) / 2, 0) = (l / 2 ^ (n + 1), 0)
      rw [add_zero, hrec]
      congr 1
      rw [div_div]
      congr 1
      ring
  rw [draw_margin_def, drawSearch80]
  have hmid : ¬ _Phi (((-10:ℝ) + 10) / 2) < (0 + 1) / 2 := by
    rw [show ((-10:ℝ) + 10) / 2 = 0 by norm_num, _Phi_zero]
    norm_num
  rw [if_neg hmid]
  have hlow := hlowrec 79 (-10) (by norm_num)
  rw [show ((-10:ℝ), ((-10:ℝ) + 10) / 2) = ((-10:ℝ), (0:ℝ)) by norm_num]
  rw [hlow]
  norm_num

/-- For any sufficiently small positive `draw_probability` the bisection walks
to the cell `(0, 10 * 2 ^ (-79))`, independently of the exact value. -/
lemma draw_margin_small_eval {β η : ℝ} (h0 : 0 < η) (hsmall : η ≤ 1e-48) :
    _draw_margin β η = 10 / 2 ^ 79 / 2 * Real.sqrt 2 * β := by
  have hs2pos : (0:ℝ) < _SQRT2 := Real.sqrt_pos.2 (by norm_num)
  have hexp : (3:ℝ)⁻¹ ^ 50 ≤ Real.exp (-50) := by
    have h1 : Real.exp 50 ≤ 3 ^ 50 := by
      have h2 : Real.exp 50 = Real.exp 1 ^ 50 := by
        rw [← Real.exp_nat_mul]
        norm_num
      rw [h2]
      have h3 : Real.exp 1 ≤ 3 := le_of_lt (lt_trans Real.exp_one_lt_d9 (by norm_num))
      exact pow_le_pow_left (Real.exp_pos 1).le h3 50
    rw [Real.exp_neg]
    rw [inv_pow]
    exact inv_le_inv_of_le (by positivity) h1
  have hPhiLow : ∀ m : ℝ, 0 < m → m ≤ 10 →
      1 / 2 + m / 4 * Real.exp (-50) ≤ _Phi m := by
    intro m hm0 hm10
    have hsqpi : Real.sqrt Real.pi ≤ 2 := by
      rw [show (2:ℝ) = Real.sqrt 4 by
        rw [show (4:ℝ) = 2 ^ 2 by norm_num, Real.sqrt_sq (by norm_num : (0:ℝ) ≤ 2)]]
      exact Real.sqrt_le_sqrt Real.pi_le_four
    have hs2le : _SQRT2 ≤ 1.5 := by
      unfold _SQRT2
      rw [show (1.5:ℝ) = Real.sqrt (1.5 ^ 2) by
        rw [Real.sqrt_sq (by norm_num : (0:ℝ) ≤ 1.5)]]
      exact Real.sqrt_le_sqrt (by norm_num)
    have hm2 : 0 < m / _SQRT2 := div_pos hm0 hs2pos
    have hintlb : (m / _SQRT2) * Real.exp (-50)
        ≤ ∫ u in (0:ℝ)..(m / _SQRT2), Real.exp (-(u ^ 2)) := by
      have hconst : ∫ _ in (0:ℝ)..(m / _SQRT2), Real.exp (-(50:ℝ))
          = (m / _SQRT2) * Real.exp (-50) := by
        rw [intervalIntegral.integral_const, smul_eq_mul, sub_zero]
      rw [← hconst]
      apply intervalIntegral.integral_mono_on hm2.le
        (intervalIntegrable_const) (continuous_gauss.intervalIntegrable _ _)
      intro u hu
      apply Real.exp_le_exp.2
      have hu0 : 0 ≤ u := hu.1
      have hule : u ≤ m / _SQRT2 := hu.2
      have hsq : u ^ 2 ≤ 50 := by
        have h1 : u ^ 2 ≤ (m / _SQRT2) ^ 2 := by
          apply pow_le_pow_left hu0 hule
        have h2 : (m / _SQRT2) ^ 2 = m ^ 2 / 2 := by
          unfold _SQRT2
          rw [div_pow, Real.sq_sqrt (by norm_num : (0:ℝ) ≤ 2)]
        nlinarith
      linarith
    have hPhi : _Phi m = 1 / 2 + (∫ u in (0:ℝ)..(m / _SQRT2), Real.exp (-(u ^ 2)))
        / Real.sqrt Real.pi := by
      unfold _Phi erf
      have hsp : (0:ℝ) < Real.sqrt Real.pi := Real.sqrt_pos.2 Real.pi_pos
      field_simp
      ring
    rw [hPhi]
    have hsp : (0:ℝ) < Real.sqrt Real.pi := Real.sqrt_pos.2 Real.pi_pos
    have hprod : _SQRT2 * Real.sqrt Real.pi ≤ 4 := by
      have h := mul_le_mul hs2le hsqpi (Real.sqrt_nonneg _) (by norm_num)
      linarith
    have hprodpos : 0 < _SQRT2 * Real.sqrt Real.pi := mul_pos hs2pos hsp
    have h1 : (m / _SQRT2) * Real.exp (-50) / Real.sqrt Real.pi
        ≤ (∫ u in (0:ℝ)..(m / _SQRT2), Real.exp (-(u ^ 2))) / Real.sqrt Real.pi :=
      (div_le_div_right hsp).2 hintlb
    have h2 : m / 4 * Real.exp (-50)
        ≤ (m / _SQRT2) * Real.exp (-50) / Real.sqrt Real.pi := by
      rw [div_mul_eq_mul_div, div_mul_eq_mul_div, div_div]
      rw [div_le_div_iff (by norm_num : (0:ℝ) < 4) hprodpos]
      exact mul_le_mul_of_nonneg_left hprod (by positivity)
    linarith
  have hupward : ∀ (n : ℕ) (h : ℝ), 0 < h → h ≤ 10 →
      (∀ m : ℝ, h / 2 ^ n ≤ m → m ≤ 10 → ¬ _Phi m < (η + 1) / 2) →
      drawSearch ((η + 1) / 2) n (0, h) = (0, h / 2 ^ n) := by
    intro n
    induction n with
    | zero =>
      intro h _ _ _
      simp [drawSearch]
    | succ n ih =>
      intro h hh0 h10 hguard
      have hmid : ¬ _Phi ((0 + h) / 2) < (η + 1) / 2 := by
        apply hguard
        · rw [zero_add]
          rw [div_le_div_iff (by positivity) (by norm_num)]
          have h2 : (2:ℝ) ≤ 2 ^ (n + 1) := by
            calc (2:ℝ) = 2 ^ 1 := (pow_one 2).symm
            _ ≤ 2 ^ (n + 1) := by
              apply pow_le_pow_right (by norm_num)
              omega
          nlinarith
        · rw [zero_add]
          linarith
      show drawSearch _ (n + 1) (0, h) = _
      rw [drawSearch]
      simp only []
      rw [if_neg hmid]
      have hrec := ih (h / 2) (by positivity) (by linarith) ?_
      · show drawSearch _ n (0, (0 + h) / 2) = (0, h / 2 ^ (n + 1))
        rw [zero_add]
        rw [hrec]
        congr 1
        rw [div_div]
        congr 1
        ring
      · intro m hm hm10
        apply hguard m ?_ hm10
        rw [div_div] at hm
        have heq : (2:ℝ) * 2 ^ n = 2 ^ (n + 1) := by ring
        rw [heq] at hm
        exact hm
  rw [draw_margin_def, drawSearch80]
  have hmid : _Phi (((-10:ℝ) + 10) / 2) < (η + 1) / 2 := by
    rw [show ((-10:ℝ) + 10) / 2 = 0 by norm_num, _Phi_zero]
    linarith
  rw [if_pos hmid]
  have hguard : ∀ m : ℝ, (10:ℝ) / 2 ^ 79 ≤ m → m ≤ 10 → ¬ _Phi m < (η + 1) / 2 := by
    intro m hm hm10
    rw [not_lt]
    have h0m : 0 < m := lt_of_lt_of_le (by positivity) hm
    have hPhi := hPhiLow m h0m hm10
    have hmm : (10:ℝ) / 2 ^ 79 / 4 * (3:ℝ)⁻¹ ^ 50 ≤ m / 4 * (3:ℝ)⁻¹ ^ 50 := by
      apply mul_le_mul_of_nonneg_right _ (by positivity)
      linarith
    have hee : m / 4 * (3:ℝ)⁻¹ ^ 50 ≤ m / 4 * Real.exp (-50) :=
      mul_le_mul_of_nonneg_left hexp (by positivity)
    have hnum : (1e-48:ℝ) / 2 ≤ (10:ℝ) / 2 ^ 79 / 4 * (3:ℝ)⁻¹ ^ 50 := by
      rw [inv_pow]
      rw [div_mul_eq_mul_div, div_le_div_iff (by norm_num) (by positivity)]
      norm_num
    linarith
  have hup := hupward 79 10 (by norm_num) (by norm_num) hguard
  rw [show (((-10:ℝ) + 10) / 2, (10:ℝ)) = ((0:ℝ), (10:ℝ)) by norm_num]
  rw [hup]
  norm_num

/-- Holding `beta >= 0` fixed, `_draw_margin` is monotone in
`draw_probability`: the two bisections stay pointwise ordered. -/
lemma draw_margin_mono {β : ℝ} (hβ : 0 ≤ β) {p1 p2 : ℝ} (hp : p1 ≤ p2) :
    _draw_margin β p1 ≤ _draw_margin β p2 := by
  have h12 : (p1 + 1) / 2 ≤ (p2 + 1) / 2 := by linarith
  have hmono : ∀ (n : ℕ) (s1 s2 : ℝ × ℝ), s1.1 ≤ s1.2 → s2.1 ≤ s2.2 →
      (s1 = s2 ∨ s1.2 ≤ s2.1) →
      (drawSearch ((p1 + 1) / 2) n s1).1 ≤ (drawSearch ((p1 + 1) / 2) n s1).2 ∧
        (drawSearch ((p2 + 1) / 2) n s2).1 ≤ (drawSearch ((p2 + 1) / 2) n s2).2 ∧
        (drawSearch ((p1 + 1) / 2) n s1 = drawSearch ((p2 + 1) / 2) n s2 ∨
          (drawSearch ((p1 + 1) / 2) n s1).2 ≤ (drawSearch ((p2 + 1) / 2) n s2).1) := by
    intro n
    induction n with
    | zero =>
      intro s1 s2 hs1 hs2 hrel
      exact ⟨hs1, hs2, hrel⟩
    | succ n ih =>
      intro s1 s2 hs1 hs2 hrel
      rcases hrel with heq | hord
      · subst heq
        show (drawSearch _ (n+1) s1).1 ≤ _ ∧ _
        rw [drawSearch, drawSearch]
        by_cases hP1 : _Phi ((s1.1 + s1.2) / 2) < (p1 + 1) / 2
        · have hP2 : _Phi ((s1.1 + s1.2) / 2) < (p2 + 1) / 2 := lt_of_lt_of_le hP1 h12
          rw [if_pos hP1, if_pos hP2]
          exact ih _ _ (by simp; linarith) (by simp; linarith) (Or.inl rfl)
        · by_cases hP2 : _Phi ((s1.1 + s1.2) / 2) < (p2 + 1) / 2
          · rw [if_neg hP1, if_pos hP2]
            exact ih _ _ (by simp; linarith) (by simp; linarith) (Or.inr (by simp))
          · rw [if_neg hP1, if_neg hP2]
            exact ih _ _ (by simp; linarith) (by simp; linarith) (Or.inl rfl)
      · show (drawSearch _ (n+1) s1).1 ≤ _ ∧ _
        rw [drawSearch, drawSearch]
        have key : ∀ u1 u2 : ℝ × ℝ,
            (u1 = ((s1.1 + s1.2) / 2, s1.2) ∨ u1 = (s1.1, (s1.1 + s1.2) / 2)) →
            (u2 = ((s2.1 + s2.2) / 2, s2.2) ∨ u2 = (s2.1, (s2.1 + s2.2) / 2)) →
            (drawSearch ((p1 + 1) / 2) n u1).1 ≤ (drawSearch ((p1 + 1) / 2) n u1).2 ∧
              (drawSearch ((p2 + 1) / 2) n u2).1 ≤ (drawSearch ((p2 + 1) / 2) n u2).2 ∧
              (drawSearch ((p1 + 1) / 2) n u1 = drawSearch ((p2 + 1) / 2) n u2 ∨
                (drawSearch ((p1 + 1) / 2) n u1).2 ≤ (drawSearch ((p2 + 1) / 2) n u2).1) := by
          intro u1 u2 hu1 hu2
          apply ih
          · rcases hu1 with h | h <;> (subst h; simp; linarith)
          · rcases hu2 with h | h <;> (subst h; simp; linarith)
          · apply Or.inr
            have hu1b : u1.2 ≤ s1.2 := by
              rcases hu1 with h | h <;> (subst h; simp) <;> linarith
            have hu2a : s2.1 ≤ u2.1 := by
              rcases hu2 with h | h <;> (subst h; simp) <;> linarith
            linarith
        by_cases hP1 : _Phi ((s1.1 + s1.2) / 2) < (p1 + 1) / 2 <;>
          by_cases hP2 : _Phi ((s2.1 + s2.2) / 2) < (p2 + 1) / 2
        · rw [if_pos hP1, if_pos hP2]
          exact key _ _ (Or.inl rfl) (Or.inl rfl)
        · rw [if_pos hP1, if_neg hP2]
          exact key _ _ (Or.inl rfl) (Or.inr rfl)
        · rw [if_neg hP1, if_pos hP2]
          exact key _ _ (Or.inr rfl) (Or.inl rfl)
        · rw [if_neg hP1, if_neg hP2]
          exact key _ _ (Or.inr rfl) (Or.inr rfl)
  rw [draw_margin_def, draw_margin_def]
  obtain ⟨h1, h2, h3⟩ := hmono 80 (-10, 10) (-10, 10) (by norm_num) (by norm_num) (Or.inl rfl)
  have hz : ((drawSearch ((p1 + 1) / 2) 80 (-10, 10)).1 +
        (drawSearch ((p1 + 1) / 2) 80 (-10, 10)).2) / 2
      ≤ ((drawSearch ((p2 + 1) / 2) 80 (-10, 10)).1 +
        (drawSearch ((p2 + 1) / 2) 80 (-10, 10)).2) / 2 := by
    rcases h3 with he | ho
    · rw [he]
    · linarith
  exact mul_le_mul_of_nonneg_right (mul_le_mul_of_nonneg_right hz (Real.sqrt_nonneg 2)) hβ

/-! ### Claim theorems -/

/-- C2: for every `t`, `_v_truncate t = phi t / Phi t` when `Phi t >= 1e-12`
and `-t` otherwise; `_w_truncate t = v * (v + t)`; and for every `t`, `eps`,
with `a = -eps-t`, `b = eps-t`, `_v_draw = (phi a - phi b)/(Phi b - Phi a)`
and `_w_draw = v_draw^2 + (b*phi b - a*phi a)/(Phi b - Phi a)`, each `0` when
the denominator is below `1e-12`. -/
theorem c2_truncation_moments (t eps : ℝ) :
    (_v_truncate t = if 1e-12 ≤ _Phi t then _phi t / _Phi t else -t) ∧
    _w_truncate t = _v_truncate t * (_v_truncate t + t) ∧
    (_v_draw t eps =
      if _Phi (eps - t) - _Phi (-eps - t) < 1e-12 then 0
      else (_phi (-eps - t) - _phi (eps - t)) / (_Phi (eps - t) - _Phi (-eps - t))) ∧
    (_w_draw t eps =
      if _Phi (eps - t) - _Phi (-eps - t) < 1e-12 then 0
      else _v_draw t eps ^ 2 +
        ((eps - t) * _phi (eps - t) - (-eps - t) * _phi (-eps - t)) /
          (_Phi (eps - t) - _Phi (-eps - t))) := by
  refine ⟨?_, rfl, rfl, ?_⟩
  · unfold _v_truncate
    rcases lt_or_le (_Phi t) 1e-12 with h | h
    · rw [if_pos h, if_neg (by linarith)]
    · rw [if_neg (by linarith), if_pos h]
  · unfold _w_draw
    rcases lt_or_le (_Phi (eps - t) - _Phi (-eps - t)) 1e-12 with h | h
    · rw [if_pos h, if_pos h]
    · rw [if_neg (by linarith), if_neg (by linarith)]
      rw [sq]

/-- C7 counterexample: `_draw_margin` is NOT strictly increasing in
`draw_probability` on `[0,1)`: two distinct tiny probabilities drive the
80-step bisection to the same dyadic cell, hence the same margin. -/
theorem c7_counterexample :
    ¬ StrictMonoOn (fun p => _draw_margin 1 p) (Set.Ico (0:ℝ) 1) := by
  intro h
  have h1 : _draw_margin 1 (1 / 10 ^ 60) = _draw_margin 1 (2 / 10 ^ 60) := by
    rw [draw_margin_small_eval (by positivity) (by norm_num),
      draw_margin_small_eval (by positivity) (by norm_num)]
  have h2 := h (Set.mem_Ico.2 ⟨by positivity, by norm_num⟩)
    (Set.mem_Ico.2 ⟨by positivity, by norm_num⟩)
    (by norm_num : (1:ℝ) / 10 ^ 60 < 2 / 10 ^ 60)
  simp only [] at h2
  rw [h1] at h2
  exact lt_irrefl _ h2

/-- C7 amended: holding `beta > 0` fixed, `_draw_margin(beta, 0)` is within
`beta * 2 ^ (-76)` of `0`, and `_draw_margin` is monotone (non-decreasing,
not strictly increasing) in `draw_probability` on `[0, 1)`. -/
theorem c7_amended {β : ℝ} (hβ : 0 < β) :
    |_draw_margin β 0| ≤ β / 2 ^ 76 ∧
      MonotoneOn (fun p => _draw_margin β p) (Set.Ico (0:ℝ) 1) := by
  constructor
  · rw [draw_margin_zero_eval]
    have hs2 : Real.sqrt 2 ≤ 1.5 := by
      rw [show (1.5:ℝ) = Real.sqrt (1.5 ^ 2) by
        rw [Real.sqrt_sq (by norm_num : (0:ℝ) ≤ 1.5)]]
      exact Real.sqrt_le_sqrt (by norm_num)
    have hs2n : (0:ℝ) ≤ Real.sqrt 2 := Real.sqrt_nonneg 2
    rw [abs_of_nonpos (by nlinarith)]
    nlinarith
  · intro p1 _ p2 _ hp
    exact draw_margin_mono hβ.le hp

/-- Witness for C7 amended at `beta = 1`. -/
theorem c7_amended_witness :
    (0:ℝ) < 1 ∧
      (|_draw_margin 1 0| ≤ 1 / 2 ^ 76 ∧
        MonotoneOn (fun p => _draw_margin 1 p) (Set.Ico (0:ℝ) 1)) := by
  refine ⟨by norm_num, ?_⟩
  have h := c7_amended (by norm_num : (0:ℝ) < 1)
  simpa using h

/-! ### Evaluating the pairwise update -/

lemma updateTeam_fst (c v w sign : ℝ) (team : List Player)
    (dm ns : List (String × ℝ)) :
    (updateTeam c v w sign team dm ns).1 = team.map (updatePlayer c v w sign) := by
  induction team generalizing dm ns with
  | nil => simp [updateTeam]
  | cons p rest ih => simp [updateTeam, ih]

lemma updateTeam_single (c v w sign : ℝ) (p : Player) (dm ns : List (String × ℝ)) :
    updateTeam c v w sign [p] dm ns =
      ([updatePlayer c v w sign p],
        dictInsert dm p.name ((updatePlayer c v w sign p).mu - p.mu),
        dictInsert ns p.name (updatePlayer c v w sign p).sigma) := by
  simp [updateTeam]

/-- A non-draw pairwise update between two singleton teams with equal means:
`t = 0`, so the truncation moments take their closed central values
`v = 2/sqrt(2*pi)` and `w = 2/pi`. -/
lemma rate_two_pair_eval (e : Env) (p q : Player) (hmu : p.mu = q.mu)
    (hs : 0 < cArg e [p] [q]) :
    _rate_two_teams e [p] [q] false false =
      .ok ([updatePlayer (Real.sqrt (cArg e [p] [q])) (2 / _SQRT_2PI) (2 / Real.pi) 1 p],
        [updatePlayer (Real.sqrt (cArg e [p] [q])) (2 / _SQRT_2PI) (2 / Real.pi) (-1) q],
        none) := by
  have hv0 : _v_truncate 0 = 2 / _SQRT_2PI := by
    unfold _v_truncate
    rw [if_neg (by rw [_Phi_zero]; norm_num), _Phi_zero]
    unfold _phi
    rw [show (-0.5:ℝ) * 0 * 0 = 0 by ring, Real.exp_zero]
    rw [div_div_eq_mul_div, div_one, div_mul_eq_mul_div, one_mul]
  have hw0 : _w_truncate 0 = 2 / Real.pi := by
    unfold _w_truncate
    rw [hv0, add_zero, div_mul_div_comm]
    unfold _SQRT_2PI
    rw [Real.mul_self_sqrt (by positivity)]
    rw [show (2:ℝ) * 2 = 2 * 2 by rfl]
    rw [div_eq_div_iff (by positivity) Real.pi_pos.ne']
    ring
  unfold _rate_two_teams
  rw [if_neg (not_lt.2 hs.le)]
  rw [if_neg (Real.sqrt_pos.2 hs).ne']
  have ht : (teamMu [p] - teamMu [q]) / Real.sqrt (cArg e [p] [q]) = 0 := by
    unfold teamMu
    simp [hmu]
  rw [ht]
  simp only [Bool.false_eq_true, if_false]
  rw [hv0, hw0, updateTeam_single, updateTeam_single]

/-- C1 amended: in a successful non-draw pairwise update, every player on
either team whose pre-update sigma is at least `sqrt(1e-9)` (the clamp floor)
ends with sigma less than or equal to its pre-update (post-drift) value. -/
theorem c1_amended (e : Env) (tw tl : List Player) (collect : Bool)
    (tw' tl' : List Player) (rep : Option EPUpdateReport)
    (hok : _rate_two_teams e tw tl false collect = .ok (tw', tl', rep)) :
    List.Forall₂ (fun q p => Real.sqrt 1e-9 ≤ p.sigma → q.sigma ≤ p.sigma) tw' tw ∧
      List.Forall₂ (fun q p => Real.sqrt 1e-9 ≤ p.sigma → q.sigma ≤ p.sigma) tl' tl := by
  have hsigle : ∀ {c w : ℝ} (v sign : ℝ) {p : Player}, 0 < c → 0 ≤ w →
      Real.sqrt 1e-9 ≤ p.sigma → (updatePlayer c v w sign p).sigma ≤ p.sigma := by
    intro c w v sign p hc hw hσp
    have h0 : (0:ℝ) ≤ p.sigma := le_trans (Real.sqrt_nonneg _) hσp
    have hσ2 : 1e-9 ≤ p.sigma * p.sigma := by
      have h := mul_le_mul hσp hσp (Real.sqrt_nonneg _) h0
      rwa [Real.mul_self_sqrt (by norm_num)] at h
    have hmax : max 1e-9 (p.sigma * p.sigma * (1 - p.sigma * p.sigma / (c * c) * w))
        ≤ p.sigma * p.sigma := by
      apply max_le hσ2
      have hx : 0 ≤ p.sigma * p.sigma / (c * c) * w := by positivity
      nlinarith
    calc (updatePlayer c v w sign p).sigma
        ≤ Real.sqrt (p.sigma * p.sigma) := Real.sqrt_le_sqrt hmax
      _ = p.sigma := Real.sqrt_mul_self h0
  unfold _rate_two_teams at hok
  by_cases h1 : cArg e tw tl < 0
  · rw [if_pos h1] at hok
    exact absurd hok (by simp)
  rw [if_neg h1] at hok
  by_cases h2 : Real.sqrt (cArg e tw tl) = 0
  · rw [if_pos h2] at hok
    exact absurd hok (by simp)
  rw [if_neg h2] at hok
  have hc : 0 < Real.sqrt (cArg e tw tl) :=
    lt_of_le_of_ne (Real.sqrt_nonneg _) (Ne.symm h2)
  simp only [Bool.false_eq_true, if_false, Except.ok.injEq, Prod.mk.injEq] at hok
  obtain ⟨hw', hl', -⟩ := hok
  rw [updateTeam_fst] at hw' hl'
  have hwterm := w_truncate_nonneg ((teamMu tw - teamMu tl) / Real.sqrt (cArg e tw tl))
  constructor
  · rw [← hw']
    rw [List.forall₂_map_left_iff]
    rw [List.forall₂_same]
    intro p hp hσp
    exact hsigle _ _ hc hwterm hσp
  · rw [← hl']
    rw [List.forall₂_map_left_iff]
    rw [List.forall₂_same]
    intro p hp hσp
    exact hsigle _ _ hc hwterm hσp

/-- The players of the C1 witness instance. -/
def c1WP : Player := ⟨"A", 25, 1⟩

/-- The second player of the C1 witness instance. -/
def c1WQ : Player := ⟨"B", 25, 1⟩

/-- Witness for C1 amended: two unit-sigma, equal-mean players under the
default environment. -/
theorem c1_amended_witness :
    List.Forall₂ (fun q p => Real.sqrt 1e-9 ≤ p.sigma → q.sigma ≤ p.sigma)
      [updatePlayer (Real.sqrt (cArg defaultEnv [c1WP] [c1WQ]))
        (2 / _SQRT_2PI) (2 / Real.pi) 1 c1WP] [c1WP] ∧
    List.Forall₂ (fun q p => Real.sqrt 1e-9 ≤ p.sigma → q.sigma ≤ p.sigma)
      [updatePlayer (Real.sqrt (cArg defaultEnv [c1WP] [c1WQ]))
        (2 / _SQRT_2PI) (2 / Real.pi) (-1) c1WQ] [c1WQ] := by
  have hcpos : 0 < cArg defaultEnv [c1WP] [c1WQ] := by
    unfold cArg teamSig2 perfNoise defaultEnv mkEnv c1WP c1WQ
    norm_num
  exact c1_amended defaultEnv [c1WP] [c1WQ] false _ _ _
    (rate_two_pair_eval defaultEnv c1WP c1WQ rfl hcpos)

/-- First player of the C1 counterexample: sigma far below the clamp floor. -/
noncomputable def c1P : Player := ⟨"A", 25, 1e-6⟩

/-- Second player of the C1 counterexample. -/
noncomputable def c1Q : Player := ⟨"B", 25, 1e-6⟩

/-- The post-update winner of the C1 counterexample. -/
noncomputable def c1Pout : Player :=
  updatePlayer (Real.sqrt (cArg defaultEnv [c1P] [c1Q])) (2 / _SQRT_2PI) (2 / Real.pi) 1 c1P

/-- The post-update loser of the C1 counterexample. -/
noncomputable def c1Qout : Player :=
  updatePlayer (Real.sqrt (cArg defaultEnv [c1P] [c1Q])) (2 / _SQRT_2PI) (2 / Real.pi) (-1) c1Q

/-- C1 counterexample: a successful non-draw pairwise update in which the
winner's sigma strictly INCREASES (pre-update sigma `1e-6`, below the clamp
floor `sqrt(1e-9) ~ 3.16e-5`, is clamped up). -/
theorem c1_counterexample :
    _rate_two_teams defaultEnv [c1P] [c1Q] false false
        = .ok ([c1Pout], [c1Qout], none) ∧
      c1P.sigma < c1Pout.sigma := by
  have hpos : 0 < cArg defaultEnv [c1P] [c1Q] := by
    unfold cArg teamSig2 perfNoise defaultEnv mkEnv c1P c1Q
    norm_num
  constructor
  · exact rate_two_pair_eval defaultEnv c1P c1Q rfl hpos
  · have h1 : Real.sqrt 1e-9 ≤ c1Pout.sigma := by
      unfold c1Pout updatePlayer
      exact Real.sqrt_le_sqrt (le_max_left _ _)
    have h2 : (1e-6:ℝ) < Real.sqrt 1e-9 := by
      rw [show (1e-6:ℝ) = Real.sqrt ((1e-6) ^ 2) by
        rw [Real.sqrt_sq (by norm_num)]]
      exact Real.sqrt_lt_sqrt (by positivity) (by norm_num)
    have h3 : c1P.sigma = 1e-6 := rfl
    linarith

/-- C4: `rate` fails with the invalid-argument error whenever
`teams.length != ranks.length` or `teams.length < 2`; the check precedes
drift and every belief update, so no player state is produced or changed. -/
theorem c4_invalid_args (e : Env) (teams : List (List Player)) (ranks : List Int)
    (rr : Bool) (h : teams.length ≠ ranks.length ∨ teams.length < 2) :
    rate e teams ranks rr =
      .error (if teams.length ≠ ranks.length then "teams and ranks must have same length"
        else "Need at least 2 teams") := by
  unfold rate
  rcases h with h | h
  · rw [if_pos h, if_pos h]
  · by_cases h2 : teams.length ≠ ranks.length
    · rw [if_pos h2, if_pos h2]
    · rw [if_neg h2, if_neg h2, if_pos h]

/-- Witness for C4 at the empty submission. -/
theorem c4_invalid_args_witness :
    (([] : List (List Player)).length ≠ ([] : List Int).length ∨
        ([] : List (List Player)).length < 2) ∧
      rate defaultEnv [] [] false =
        .error (if ([] : List (List Player)).length ≠ ([] : List Int).length then
          "teams and ranks must have same length" else "Need at least 2 teams") :=
  ⟨Or.inr (by norm_num),
    c4_invalid_args defaultEnv [] [] false (Or.inr (by norm_num))⟩

/-! ### The default 1v1 scenario -/

/-- `make_player(defaultEnv, "A")`. -/
noncomputable def pA : Player := make_player defaultEnv "A"

/-- `make_player(defaultEnv, "B")`. -/
noncomputable def pB : Player := make_player defaultEnv "B"

/-- Player A after the temporal drift of the `rate` call. -/
noncomputable def pA1 : Player := _apply_drift defaultEnv pA

/-- Player B after the temporal drift of the `rate` call. -/
noncomputable def pB1 : Player := _apply_drift defaultEnv pB

/-- The combined scale `c` of the default 1v1 update. -/
noncomputable def cDef : ℝ := Real.sqrt (cArg defaultEnv [pA1] [pB1])

/-- Player A after `rate(defaultEnv, [[A],[B]], [0,1])`. -/
noncomputable def pAout : Player := updatePlayer cDef (2 / _SQRT_2PI) (2 / Real.pi) 1 pA1

/-- Player B after `rate(defaultEnv, [[A],[B]], [0,1])`. -/
noncomputable def pBout : Player := updatePlayer cDef (2 / _SQRT_2PI) (2 / Real.pi) (-1) pB1

lemma cArg_default_pos : 0 < cArg defaultEnv [pA1] [pB1] := by
  unfold cArg teamSig2 perfNoise pA1 pB1 _apply_drift pA pB make_player defaultEnv mkEnv
  simp only [List.map_cons, List.map_nil, List.sum_cons, List.sum_nil]
  positivity

/-- Evaluating `rate` on a generic 1v1 non-draw submission with equal means:
the call drifts both players and applies the central pairwise update. -/
lemma rate_1v1_eval (e : Env) (p q : Player) (hmu : p.mu = q.mu)
    (hs : 0 < cArg e [_apply_drift e p] [_apply_drift e q]) :
    rate e [[p], [q]] [(0:Int), 1] false =
      .ok ([[updatePlayer (Real.sqrt (cArg e [_apply_drift e p] [_apply_drift e q]))
              (2 / _SQRT_2PI) (2 / Real.pi) 1 (_apply_drift e p)],
            [updatePlayer (Real.sqrt (cArg e [_apply_drift e p] [_apply_drift e q]))
              (2 / _SQRT_2PI) (2 / Real.pi) (-1) (_apply_drift e q)]], none) := by
  unfold rate
  rw [show driftTeams e [[p], [q]] = [[_apply_drift e p], [_apply_drift e q]] from rfl]
  rw [if_neg (by norm_num), if_neg (by norm_num), if_neg (by norm_num)]
  simp only [List.getD_cons_zero, List.getD_cons_succ]
  rw [if_neg (by norm_num : ¬ ((0:Int) = 1)), if_pos (by norm_num : (0:Int) < 1)]
  rw [rate_two_pair_eval e (_apply_drift e p) (_apply_drift e q)
    (show (_apply_drift e p).mu = (_apply_drift e q).mu from hmu) hs]
  rfl

lemma rate_default_eval :
    rate defaultEnv [[pA], [pB]] [(0:Int), 1] false = .ok ([[pAout], [pBout]], none) := by
  unfold rate
  rw [show driftTeams defaultEnv [[pA], [pB]] = [[pA1], [pB1]] from rfl]
  rw [if_neg (by norm_num), if_neg (by norm_num), if_neg (by norm_num)]
  simp only [List.getD_cons_zero, List.getD_cons_succ]
  rw [if_neg (by norm_num : ¬ ((0:Int) = 1)), if_pos (by norm_num : (0:Int) < 1)]
  rw [rate_two_pair_eval defaultEnv pA1 pB1 rfl cArg_default_pos]
  rfl

/-- The post-drift variance of a fresh default player. -/
noncomputable def defX : ℝ := 25 / 3 * (25 / 3) + 25 / 300 * (25 / 300)

lemma defX_pos : (0:ℝ) < defX := by unfold defX; norm_num

/-- mu and sigma facts about one player's central pairwise update
(`v = 2/sqrt(2*pi)`, `w = 2/pi`) with combined scale `C > 0`: closed mu
shifts for winner and loser sign, sign-independent new sigma, and the
clamp-floor-conditional sigma contraction. -/
lemma updatePlayer_central {C : ℝ} (hC : 0 < C) (r : Player) :
    (updatePlayer C (2 / _SQRT_2PI) (2 / Real.pi) 1 r).mu
        = r.mu + r.sigma * r.sigma / C * (2 / _SQRT_2PI) ∧
    (updatePlayer C (2 / _SQRT_2PI) (2 / Real.pi) (-1) r).mu
        = r.mu - r.sigma * r.sigma / C * (2 / _SQRT_2PI) ∧
    (updatePlayer C (2 / _SQRT_2PI) (2 / Real.pi) 1 r).sigma
        = (updatePlayer C (2 / _SQRT_2PI) (2 / Real.pi) (-1) r).sigma ∧
    (Real.sqrt 1e-9 ≤ r.sigma →
      (updatePlayer C (2 / _SQRT_2PI) (2 / Real.pi) 1 r).sigma ≤ r.sigma) ∧
    (Real.sqrt 1e-9 < r.sigma →
      (updatePlayer C (2 / _SQRT_2PI) (2 / Real.pi) 1 r).sigma < r.sigma) := by
  refine ⟨by
      show r.mu + 1 * (r.sigma * r.sigma / C * (2 / _SQRT_2PI)) = _
      ring,
    by
      show r.mu + (-1) * (r.sigma * r.sigma / C * (2 / _SQRT_2PI)) = _
      ring,
    rfl, ?_, ?_⟩
  · intro hσfloor
    have h0 : (0:ℝ) ≤ r.sigma := le_trans (Real.sqrt_nonneg _) hσfloor
    have hσ2 : 1e-9 ≤ r.sigma * r.sigma := by
      have h := mul_le_mul hσfloor hσfloor (Real.sqrt_nonneg _) h0
      rwa [Real.mul_self_sqrt (by norm_num)] at h
    have hmax : max 1e-9 (r.sigma * r.sigma
          * (1 - r.sigma * r.sigma / (C * C) * (2 / Real.pi)))
        ≤ r.sigma * r.sigma := by
      apply max_le hσ2
      have hpi := Real.pi_pos
      have hx : 0 ≤ r.sigma * r.sigma / (C * C) * (2 / Real.pi) := by positivity
      nlinarith
    calc (updatePlayer C (2 / _SQRT_2PI) (2 / Real.pi) 1 r).sigma
        ≤ Real.sqrt (r.sigma * r.sigma) := Real.sqrt_le_sqrt hmax
      _ = r.sigma := Real.sqrt_mul_self h0
  · intro hσfloor
    have h0 : (0:ℝ) < r.sigma := lt_of_le_of_lt (Real.sqrt_nonneg _) hσfloor
    have hsq : Real.sqrt 1e-9 * Real.sqrt 1e-9 = 1e-9 :=
      Real.mul_self_sqrt (by norm_num)
    have hσ2 : 1e-9 < r.sigma * r.sigma := by
      nlinarith [Real.sqrt_nonneg (1e-9:ℝ)]
    have hx : 0 < r.sigma * r.sigma / (C * C) * (2 / Real.pi) :=
      mul_pos (div_pos (mul_pos h0 h0) (mul_pos hC hC))
        (div_pos (by norm_num) Real.pi_pos)
    have hmaxlt : max 1e-9 (r.sigma * r.sigma
          * (1 - r.sigma * r.sigma / (C * C) * (2 / Real.pi)))
        < r.sigma * r.sigma := by
      apply max_lt hσ2
      nlinarith
    calc (updatePlayer C (2 / _SQRT_2PI) (2 / Real.pi) 1 r).sigma
        < Real.sqrt (r.sigma * r.sigma) :=
          Real.sqrt_lt_sqrt (le_trans (by norm_num) (le_max_left _ _)) hmaxlt
      _ = r.sigma := Real.sqrt_mul_self h0.le

/-- C8 amended: in a 1v1 non-draw match between two players with identical
prior mu and sigma, whenever the combined scale is positive and the
post-drift sigma is positive, the call succeeds, the winner's mu strictly
rises and the loser's strictly falls by exactly the same magnitude, the two
post-update sigmas are equal, and each post-update sigma is at most the
post-drift sigma when that sigma is at least the clamp floor `sqrt(1e-9)`
(strictly less when strictly above the floor). -/
theorem c8_amended (e : Env) (p q : Player) (hmu : p.mu = q.mu)
    (hsig : p.sigma = q.sigma)
    (hs : 0 < cArg e [_apply_drift e p] [_apply_drift e q])
    (hσ1 : 0 < (_apply_drift e p).sigma) :
    ∃ P Q : Player,
      rate e [[p], [q]] [(0:Int), 1] false = .ok ([[P], [Q]], none) ∧
      p.mu < P.mu ∧ Q.mu < q.mu ∧
      P.mu - p.mu = -(Q.mu - q.mu) ∧
      P.sigma = Q.sigma ∧
      (Real.sqrt 1e-9 ≤ (_apply_drift e p).sigma →
        P.sigma ≤ (_apply_drift e p).sigma) ∧
      (Real.sqrt 1e-9 < (_apply_drift e p).sigma →
        P.sigma < (_apply_drift e p).sigma) := by
  obtain ⟨CC, hCC⟩ :
      ∃ CC, CC = Real.sqrt (cArg e [_apply_drift e p] [_apply_drift e q]) :=
    ⟨_, rfl⟩
  have hC : 0 < CC := by
    rw [hCC]
    exact Real.sqrt_pos.2 hs
  have hrate := rate_1v1_eval e p q hmu hs
  rw [← hCC] at hrate
  have hq1s : (_apply_drift e q).sigma = (_apply_drift e p).sigma := by
    show Real.sqrt (q.sigma * q.sigma + e.tau * e.tau)
        = Real.sqrt (p.sigma * p.sigma + e.tau * e.tau)
    rw [hsig]
  obtain ⟨hPmu, -, -, hPle, hPlt⟩ := updatePlayer_central hC (_apply_drift e p)
  obtain ⟨-, hQmu, -, -, -⟩ := updatePlayer_central hC (_apply_drift e q)
  rw [hq1s, show (_apply_drift e q).mu = q.mu from rfl] at hQmu
  rw [show (_apply_drift e p).mu = p.mu from rfl] at hPmu
  have hδ : 0 < (_apply_drift e p).sigma * (_apply_drift e p).sigma / CC
      * (2 / _SQRT_2PI) := by
    apply mul_pos (div_pos (mul_pos hσ1 hσ1) hC)
    apply div_pos (by norm_num)
    unfold _SQRT_2PI
    positivity
  refine ⟨updatePlayer CC (2 / _SQRT_2PI) (2 / Real.pi) 1 (_apply_drift e p),
    updatePlayer CC (2 / _SQRT_2PI) (2 / Real.pi) (-1) (_apply_drift e q),
    hrate, ?_, ?_, ?_, ?_, hPle, hPlt⟩
  · rw [hPmu]
    linarith
  · rw [hQmu]
    linarith
  · rw [hPmu, hQmu]
    ring
  · show (updatePlayer CC (2 / _SQRT_2PI) (2 / Real.pi) 1 (_apply_drift e p)).sigma
        = (updatePlayer CC (2 / _SQRT_2PI) (2 / Real.pi) (-1) (_apply_drift e q)).sigma
    simp only [updatePlayer]
    rw [hq1s]

/-- Witness for C8 amended: two fresh default players. -/
theorem c8_amended_witness :
    pA.mu = pB.mu ∧ pA.sigma = pB.sigma ∧
    0 < cArg defaultEnv [_apply_drift defaultEnv pA] [_apply_drift defaultEnv pB] ∧
    0 < (_apply_drift defaultEnv pA).sigma ∧
    ∃ P Q : Player,
      rate defaultEnv [[pA], [pB]] [(0:Int), 1] false = .ok ([[P], [Q]], none) ∧
      pA.mu < P.mu ∧ Q.mu < pB.mu ∧
      P.mu - pA.mu = -(Q.mu - pB.mu) ∧
      P.sigma = Q.sigma ∧
      (Real.sqrt 1e-9 ≤ (_apply_drift defaultEnv pA).sigma →
        P.sigma ≤ (_apply_drift defaultEnv pA).sigma) ∧
      (Real.sqrt 1e-9 < (_apply_drift defaultEnv pA).sigma →
        P.sigma < (_apply_drift defaultEnv pA).sigma) := by
  have h3 : 0 < cArg defaultEnv [_apply_drift defaultEnv pA]
      [_apply_drift defaultEnv pB] := cArg_default_pos
  have h4 : 0 < (_apply_drift defaultEnv pA).sigma := by
    rw [show (_apply_drift defaultEnv pA).sigma = Real.sqrt defX from rfl]
    exact Real.sqrt_pos.2 defX_pos
  exact ⟨rfl, rfl, h3, h4, c8_amended defaultEnv pA pB rfl rfl h3 h4⟩

/-- The environment of the C8 counterexample: `tau = 0`, `sigma0 = 1e-6`. -/
noncomputable def envL : Env := mkEnv 25 1e-6 (25 / 6) 0 0.10 0

/-- A fresh player of the C8 counterexample. -/
noncomputable def rA : Player := make_player envL "A"

/-- The second fresh player of the C8 counterexample. -/
noncomputable def rB : Player := make_player envL "B"

/-- The winner after the C8 counterexample call. -/
noncomputable def rAout : Player :=
  updatePlayer (Real.sqrt (cArg envL [_apply_drift envL rA] [_apply_drift envL rB]))
    (2 / _SQRT_2PI) (2 / Real.pi) 1 (_apply_drift envL rA)

/-- The loser after the C8 counterexample call. -/
noncomputable def rBout : Player :=
  updatePlayer (Real.sqrt (cArg envL [_apply_drift envL rA] [_apply_drift envL rB]))
    (2 / _SQRT_2PI) (2 / Real.pi) (-1) (_apply_drift envL rB)

/-- C8 counterexample: two fresh players with identical prior mu and sigma
under `tau = 0`, `sigma0 = 1e-6`: the rate call succeeds and BOTH sigmas
strictly increase (the `1e-9` variance clamp raises them to `sqrt(1e-9)`),
refuting the claimed sigma shrink for general identical-prior 1v1 inputs. -/
theorem c8_counterexample :
    rA.mu = rB.mu ∧ rA.sigma = rB.sigma ∧
    rate envL [[rA], [rB]] [(0:Int), 1] false = .ok ([[rAout], [rBout]], none) ∧
    rA.sigma < rAout.sigma ∧ rB.sigma < rBout.sigma := by
  have hs : 0 < cArg envL [_apply_drift envL rA] [_apply_drift envL rB] := by
    unfold cArg teamSig2 perfNoise rA rB _apply_drift make_player envL mkEnv
    simp only [List.map_cons, List.map_nil, List.sum_cons, List.sum_nil, add_zero]
    positivity
  obtain ⟨CC, hCC⟩ :
      ∃ CC, CC = Real.sqrt (cArg envL [_apply_drift envL rA] [_apply_drift envL rB]) :=
    ⟨_, rfl⟩
  have hA1 : (_apply_drift envL rA).sigma * (_apply_drift envL rA).sigma = 1e-12 := by
    show Real.sqrt (1e-6 * 1e-6 + 0 * 0) * Real.sqrt (1e-6 * 1e-6 + 0 * 0) = 1e-12
    rw [Real.mul_self_sqrt (by norm_num)]
    norm_num
  have hB1 : (_apply_drift envL rB).sigma * (_apply_drift envL rB).sigma = 1e-12 := by
    show Real.sqrt (1e-6 * 1e-6 + 0 * 0) * Real.sqrt (1e-6 * 1e-6 + 0 * 0) = 1e-12
    rw [Real.mul_self_sqrt (by norm_num)]
    norm_num
  have hx : (0:ℝ) ≤ 1e-12 / (CC * CC) * (2 / Real.pi) := by
    apply mul_nonneg
    · exact div_nonneg (by norm_num) (mul_self_nonneg CC)
    · have hpi := Real.pi_pos
      positivity
  have hAout : rAout.sigma = Real.sqrt 1e-9 := by
    show Real.sqrt (max 1e-9 ((_apply_drift envL rA).sigma * (_apply_drift envL rA).sigma
        * (1 - (_apply_drift envL rA).sigma * (_apply_drift envL rA).sigma
            / (Real.sqrt (cArg envL [_apply_drift envL rA] [_apply_drift envL rB])
              * Real.sqrt (cArg envL [_apply_drift envL rA] [_apply_drift envL rB]))
            * (2 / Real.pi)))) = Real.sqrt 1e-9
    rw [← hCC, hA1, max_eq_left (by nlinarith)]
  have hBout : rBout.sigma = Real.sqrt 1e-9 := by
    show Real.sqrt (max 1e-9 ((_apply_drift envL rB).sigma * (_apply_drift envL rB).sigma
        * (1 - (_apply_drift envL rB).sigma * (_apply_drift envL rB).sigma
            / (Real.sqrt (cArg envL [_apply_drift envL rA] [_apply_drift envL rB])
              * Real.sqrt (cArg envL [_apply_drift envL rA] [_apply_drift envL rB]))
            * (2 / Real.pi)))) = Real.sqrt 1e-9
    rw [← hCC, hB1, max_eq_left (by nlinarith)]
  have hgrow : (1e-6:ℝ) < Real.sqrt 1e-9 := by
    rw [show (1e-6:ℝ) = Real.sqrt (1e-6 * 1e-6) by
      rw [Real.sqrt_mul_self (by norm_num)]]
    exact Real.sqrt_lt_sqrt (by norm_num) (by norm_num)
  refine ⟨rfl, rfl, rate_1v1_eval envL rA rB rfl hs, ?_, ?_⟩
  · rw [hAout]
    exact hgrow
  · rw [hBout]
    exact hgrow

/-! ### Sigma positivity -/

lemma rate_two_teams_ok_pos {e : Env} {tw tl : List Player} {d coll : Bool}
    {tw' tl' : List Player} {rep : Option EPUpdateReport}
    (hok : _rate_two_teams e tw tl d coll = .ok (tw', tl', rep)) :
    (∀ p ∈ tw', 0 < p.sigma) ∧ ∀ p ∈ tl', 0 < p.sigma := by
  unfold _rate_two_teams at hok
  by_cases h1 : cArg e tw tl < 0
  · rw [if_pos h1] at hok
    exact absurd hok (by simp)
  rw [if_neg h1] at hok
  by_cases h2 : Real.sqrt (cArg e tw tl) = 0
  · rw [if_pos h2] at hok
    exact absurd hok (by simp)
  rw [if_neg h2] at hok
  simp only [Except.ok.injEq, Prod.mk.injEq] at hok
  obtain ⟨hw', hl', -⟩ := hok
  rw [updateTeam_fst] at hw' hl'
  rw [← hw', ← hl']
  constructor <;>
    (intro p hp
     obtain ⟨q, -, rfl⟩ := List.mem_map.1 hp
     exact Real.sqrt_pos.2 (lt_of_lt_of_le (by norm_num : (0:ℝ) < 1e-9) (le_max_left _ _)))

/-- C6: a player created by `make_player` with `sigma0 > 0` has positive
sigma, and positivity of every participant's sigma is preserved by every
successful `rate` call (the update clamps variance at the floor `1e-9`). -/
theorem c6_sigma_pos (e : Env) (nm : String) (teams res : List (List Player))
    (ranks : List Int) (rr : Bool) (reps : Option (List EPUpdateReport))
    (hσ0 : 0 < e.sigma0)
    (hpos : ∀ team ∈ teams, ∀ p ∈ team, 0 < p.sigma)
    (hok : rate e teams ranks rr = .ok (res, reps)) :
    0 < (make_player e nm).sigma ∧ ∀ team ∈ res, ∀ p ∈ team, 0 < p.sigma := by
  refine ⟨hσ0, ?_⟩
  have hpos1 : ∀ team ∈ driftTeams e teams, ∀ p ∈ team, 0 < p.sigma := by
    intro team hteam p hp
    obtain ⟨t0, ht0, rfl⟩ := List.mem_map.1 hteam
    obtain ⟨q, hq, rfl⟩ := List.mem_map.1 hp
    apply Real.sqrt_pos.2
    nlinarith [sq_nonneg e.tau, mul_pos (hpos t0 ht0 q hq) (hpos t0 ht0 q hq)]
  have hffa : ∀ (order : List Nat) (state st' : List (List Player))
      (reps2 : List EPUpdateReport),
      (∀ team ∈ state, ∀ p ∈ team, 0 < p.sigma) →
      ffa e state ranks order rr = .ok (st', reps2) →
      ∀ team ∈ st', ∀ p ∈ team, 0 < p.sigma := by
    intro order
    induction order with
    | nil =>
      intro state st' reps2 hpos2 hok2
      unfold ffa at hok2
      simp only [Except.ok.injEq, Prod.mk.injEq] at hok2
      rw [← hok2.1]
      exact hpos2
    | cons a rest ih =>
      intro state st' reps2 hpos2 hok2
      cases rest with
      | nil =>
        unfold ffa at hok2
        simp only [Except.ok.injEq, Prod.mk.injEq] at hok2
        rw [← hok2.1]
        exact hpos2
      | cons b rest' =>
        unfold ffa at hok2
        split at hok2
        · exact absurd hok2 (by simp)
        · rename_i ta' tb' rep hrt
          split at hok2
          · exact absurd hok2 (by simp)
          · rename_i st2 reps3 hff
            simp only [Except.ok.injEq, Prod.mk.injEq] at hok2
            obtain ⟨hst, -⟩ := hok2
            subst hst
            apply ih _ _ _ _ hff
            intro team hteam
            rcases List.mem_or_eq_of_mem_set hteam with hteam2 | rfl
            · rcases List.mem_or_eq_of_mem_set hteam2 with hteam3 | rfl
              · exact hpos2 _ hteam3
              · exact (rate_two_teams_ok_pos hrt).1
            · exact (rate_two_teams_ok_pos hrt).2
  unfold rate at hok
  split at hok
  · exact absurd hok (by simp)
  split at hok
  · exact absurd hok (by simp)
  split at hok
  · split at hok
    · exact absurd hok (by simp)
    · rename_i st reps2 hff
      simp only [Except.ok.injEq, Prod.mk.injEq] at hok
      obtain ⟨hst, -⟩ := hok
      subst hst
      exact hffa _ _ _ _ hpos1 hff
  · split at hok
    · split at hok
      · exact absurd hok (by simp)
      · rename_i w' l' rep hrt
        simp only [Except.ok.injEq, Prod.mk.injEq] at hok
        obtain ⟨hst, -⟩ := hok
        subst hst
        intro team hteam
        have h2 := rate_two_teams_ok_pos hrt
        rcases List.mem_cons.1 hteam with rfl | hteam2
        · exact h2.1
        · rcases List.mem_singleton.1 hteam2 with rfl
          exact h2.2
    · split at hok
      · split at hok
        · exact absurd hok (by simp)
        · rename_i w' l' rep hrt
          simp only [Except.ok.injEq, Prod.mk.injEq] at hok
          obtain ⟨hst, -⟩ := hok
          subst hst
          intro team hteam
          have h2 := rate_two_teams_ok_pos hrt
          rcases List.mem_cons.1 hteam with rfl | hteam2
          · exact h2.1
          · rcases List.mem_singleton.1 hteam2 with rfl
            exact h2.2
      · split at hok
        · exact absurd hok (by simp)
        · rename_i w' l' rep hrt
          simp only [Except.ok.injEq, Prod.mk.injEq] at hok
          obtain ⟨hst, -⟩ := hok
          subst hst
          intro team hteam
          have h2 := rate_two_teams_ok_pos hrt
          rcases List.mem_cons.1 hteam with rfl | hteam2
          · exact h2.2
          · rcases List.mem_singleton.1 hteam2 with rfl
            exact h2.1

/-- Witness for C6 at the default 1v1 scenario. -/
theorem c6_sigma_pos_witness :
    0 < defaultEnv.sigma0 ∧
      (∀ team ∈ [[pA], [pB]], ∀ p ∈ team, 0 < p.sigma) ∧
      (0 < (make_player defaultEnv "C").sigma ∧
        ∀ team ∈ [[pAout], [pBout]], ∀ p ∈ team, 0 < p.sigma) := by
  have h0 : (0:ℝ) < defaultEnv.sigma0 := by
    rw [show defaultEnv.sigma0 = 25 / 3 from rfl]
    norm_num
  have hpos : ∀ team ∈ [[pA], [pB]], ∀ p ∈ team, 0 < p.sigma := by
    intro team hteam p hp
    have hA : pA.sigma = 25 / 3 := rfl
    have hB : pB.sigma = 25 / 3 := rfl
    rcases List.mem_cons.1 hteam with rfl | hteam2
    · rcases List.mem_singleton.1 hp with rfl
      rw [hA]
      norm_num
    · rcases List.mem_singleton.1 hteam2 with rfl
      rcases List.mem_singleton.1 hp with rfl
      rw [hB]
      norm_num
  exact ⟨h0, hpos,
    c6_sigma_pos defaultEnv "C" [[pA], [pB]] [[pAout], [pBout]] [(0:Int), 1] false none
      h0 hpos rate_default_eval⟩

/-! ### Empty teams and report name collisions -/

/-- C5 amended: `rate` performs no empty-team validation.  With matching
lengths, two teams of which the second is empty, distinct ranks in order and
a positive scale argument, the call succeeds (drift plus pairwise update),
rather than failing with an invalid-argument error. -/
theorem c5_amended (e : Env) (team : List Player) (r0 r1 : Int) (hr : r0 < r1)
    (hs : 0 < cArg e (team.map (_apply_drift e)) []) :
    ∃ out, rate e [team, []] [r0, r1] false = .ok out := by
  unfold rate
  rw [if_neg (by norm_num), if_neg (by norm_num)]
  rw [if_neg (by simp [driftTeams] : ¬ 2 < (driftTeams e [team, []]).length)]
  rw [show driftTeams e [team, []] = [team.map (_apply_drift e), []] from rfl]
  simp only [List.getD_cons_zero, List.getD_cons_succ]
  rw [if_neg (by omega : ¬ r0 = r1), if_pos hr]
  unfold _rate_two_teams
  rw [if_neg (not_lt.2 hs.le), if_neg ((Real.sqrt_pos.2 hs).ne')]
  exact ⟨_, rfl⟩

/-- Witness for C5 amended: a one-player team against an empty team. -/
theorem c5_amended_witness :
    (0:Int) < 1 ∧ 0 < cArg defaultEnv ([pA].map (_apply_drift defaultEnv)) [] ∧
      ∃ out, rate defaultEnv [[pA], []] [(0:Int), 1] false = .ok out := by
  have hpos : 0 < cArg defaultEnv ([pA].map (_apply_drift defaultEnv)) [] := by
    unfold cArg teamSig2 perfNoise pA _apply_drift make_player defaultEnv mkEnv
    simp only [List.map_cons, List.map_nil, List.sum_cons, List.sum_nil, add_zero]
    positivity
  exact ⟨by norm_num, hpos, c5_amended defaultEnv [pA] 0 1 (by norm_num) hpos⟩

/-- The surviving player after the C5 counterexample call: the combined scale
is `sqrt(cArg)` and the normalized mean difference is `teamMu / sqrt(cArg)`. -/
noncomputable def c5out : Player :=
  updatePlayer (Real.sqrt (cArg defaultEnv [pA1] []))
    (_v_truncate ((teamMu [pA1] - teamMu []) / Real.sqrt (cArg defaultEnv [pA1] [])))
    (_w_truncate ((teamMu [pA1] - teamMu []) / Real.sqrt (cArg defaultEnv [pA1] [])))
    1 pA1

/-- C5 counterexample: a submission containing an empty team is NOT rejected:
`rate` returns a success value and the non-empty team's player has been
processed (drift strictly increased its sigma before the update). -/
theorem c5_counterexample :
    rate defaultEnv [[pA], []] [(0:Int), 1] false = .ok ([[c5out], []], none) ∧
      pA.sigma < pA1.sigma := by
  have hA1pos : 0 < cArg defaultEnv [pA1] [] := by
    unfold cArg teamSig2 perfNoise pA1 pA _apply_drift make_player defaultEnv mkEnv
    simp only [List.map_cons, List.map_nil, List.sum_cons, List.sum_nil, add_zero]
    positivity
  constructor
  · unfold rate
    rw [if_neg (by norm_num), if_neg (by norm_num)]
    rw [if_neg (by simp [driftTeams] :
      ¬ 2 < (driftTeams defaultEnv [[pA], []]).length)]
    rw [show driftTeams defaultEnv [[pA], []] = [[pA1], []] from rfl]
    simp only [List.getD_cons_zero, List.getD_cons_succ]
    rw [if_neg (by norm_num : ¬ (0:Int) = 1), if_pos (by norm_num : (0:Int) < 1)]
    unfold _rate_two_teams
    rw [if_neg (not_lt.2 hA1pos.le), if_neg ((Real.sqrt_pos.2 hA1pos).ne')]
    rfl
  · rw [show pA.sigma = 25 / 3 from rfl,
      show pA1.sigma = Real.sqrt defX from rfl]
    rw [show (25:ℝ) / 3 = Real.sqrt ((25 / 3) ^ 2) by
      rw [Real.sqrt_sq (by norm_num)]]
    apply Real.sqrt_lt_sqrt (by positivity)
    unfold defX
    norm_num

/-- C10: in a pairwise update with a report, `delta_mu` / `new_sigma` are
keyed by player name; when the singleton winner and loser share one name the
report holds a single entry containing the loser-side values (the loser-team
write overwrites the winner-team entry), even though the winner's belief was
updated as well. -/
theorem c10_report_name_collision (e : Env) (p q : Player) (d : Bool)
    (hname : p.name = q.name) (hs : 0 < cArg e [p] [q]) :
    ∃ (rep : EPUpdateReport) (p' q' : Player),
      _rate_two_teams e [p] [q] d true = .ok ([p'], [q'], some rep) ∧
      rep.delta_mu = [(q.name, q'.mu - q.mu)] ∧
      rep.new_sigma = [(q.name, q'.sigma)] ∧
      p'.mu - p.mu = p.sigma * p.sigma / Real.sqrt (cArg e [p] [q]) * rep.v ∧
      q'.mu - q.mu = -(q.sigma * q.sigma / Real.sqrt (cArg e [p] [q]) * rep.v) := by
  unfold _rate_two_teams
  rw [if_neg (not_lt.2 hs.le), if_neg ((Real.sqrt_pos.2 hs).ne')]
  cases d
  · simp only [Bool.false_eq_true, if_false, eq_self_iff_true, if_true]
    rw [updateTeam_single, updateTeam_single]
    refine ⟨_, _, _, rfl, ?_, ?_, ?_, ?_⟩
    · simp [dictInsert, hname]
    · simp [dictInsert, hname]
    · simp only [updatePlayer]
      ring
    · simp only [updatePlayer]
      ring
  · simp only [Bool.false_eq_true, if_false, eq_self_iff_true, if_true]
    rw [updateTeam_single, updateTeam_single]
    refine ⟨_, _, _, rfl, ?_, ?_, ?_, ?_⟩
    · simp [dictInsert, hname]
    · simp [dictInsert, hname]
    · simp only [updatePlayer]
      ring
    · simp only [updatePlayer]
      ring

/-- Winner-side player of the C10 witness (name shared with the loser). -/
noncomputable def c10P : Player := ⟨"N", 25, 1⟩

/-- Loser-side player of the C10 witness. -/
noncomputable def c10Q : Player := ⟨"N", 20, 2⟩

/-- Witness for C10 at two distinct players sharing the name `"N"`. -/
theorem c10_report_name_collision_witness :
    c10P.name = c10Q.name ∧ 0 < cArg defaultEnv [c10P] [c10Q] ∧
      ∃ (rep : EPUpdateReport) (p' q' : Player),
        _rate_two_teams defaultEnv [c10P] [c10Q] false true = .ok ([p'], [q'], some rep) ∧
        rep.delta_mu = [(c10Q.name, q'.mu - c10Q.mu)] ∧
        rep.new_sigma = [(c10Q.name, q'.sigma)] ∧
        p'.mu - c10P.mu
          = c10P.sigma * c10P.sigma / Real.sqrt (cArg defaultEnv [c10P] [c10Q]) * rep.v ∧
        q'.mu - c10Q.mu
          = -(c10Q.sigma * c10Q.sigma / Real.sqrt (cArg defaultEnv [c10P] [c10Q]) * rep.v) := by
  have hpos : 0 < cArg defaultEnv [c10P] [c10Q] := by
    unfold cArg teamSig2 perfNoise c10P c10Q defaultEnv mkEnv
    norm_num
  exact ⟨rfl, hpos, c10_report_name_collision defaultEnv c10P c10Q false rfl hpos⟩

/-! ### The free-for-all decomposition -/

/-- The name list of team `j` of a state (out-of-range teams read as `[]`,
as in the Python indexing precondition). -/
def teamNames (state : List (List Player)) (j : ℕ) : List String :=
  (state.getD j []).map Player.name

lemma teamNames_set {state : List (List Player)} {a : ℕ} {ta' : List Player}
    (ha : ta'.map Player.name = teamNames state a) (j : ℕ) :
    teamNames (state.set a ta') j = teamNames state j := by
  unfold teamNames at *
  by_cases hj : a = j
  · subst hj
    by_cases hlen : a < state.length
    · rw [List.getD_eq_getElem?_getD, List.getElem?_set_eq hlen]
      rw [List.getD_eq_getElem?_getD] at ha
      simpa using ha
    · rw [List.set_eq_of_length_le (le_of_not_lt hlen)]
  · rw [List.getD_eq_getElem?_getD, List.getElem?_set_ne hj,
      ← List.getD_eq_getElem?_getD]

lemma ffa_reports (e : Env) (ranks : List Int) :
    ∀ (order : List Nat) (state st' : List (List Player))
      (reps : List EPUpdateReport),
      ffa e state ranks order true = .ok (st', reps) →
      reps.length = order.length - 1 ∧
      ∀ i, i + 1 < order.length →
        (reps.getD i default).is_draw
            = decide (ranks.getD (order.getD i 0) 0
                = ranks.getD (order.getD (i + 1) 0) 0) ∧
        (reps.getD i default).team_winner = teamNames state (order.getD i 0) ∧
        (reps.getD i default).team_loser = teamNames state (order.getD (i + 1) 0) := by
  have hreport : ∀ {tw tl : List Player} {d : Bool} {tw' tl' : List Player}
      {rep : Option EPUpdateReport},
      _rate_two_teams e tw tl d true = .ok (tw', tl', rep) →
      ∃ r, rep = some r ∧ r.is_draw = d ∧
        r.team_winner = tw.map Player.name ∧ r.team_loser = tl.map Player.name ∧
        tw'.map Player.name = tw.map Player.name ∧
        tl'.map Player.name = tl.map Player.name := by
    intro tw tl d tw' tl' rep hok2
    have hmapname : ∀ (c v w sign : ℝ) (team : List Player),
        (team.map (updatePlayer c v w sign)).map Player.name
          = team.map Player.name := by
      intro c v w sign team
      rw [List.map_map]
      rfl
    unfold _rate_two_teams at hok2
    by_cases h1 : cArg e tw tl < 0
    · rw [if_pos h1] at hok2
      exact absurd hok2 (by simp)
    rw [if_neg h1] at hok2
    by_cases h2 : Real.sqrt (cArg e tw tl) = 0
    · rw [if_pos h2] at hok2
      exact absurd hok2 (by simp)
    rw [if_neg h2] at hok2
    simp only [eq_self_iff_true, if_true, Except.ok.injEq, Prod.mk.injEq] at hok2
    obtain ⟨hw', hl', hrep⟩ := hok2
    refine ⟨_, hrep.symm, rfl, rfl, rfl, ?_, ?_⟩
    · rw [← hw', updateTeam_fst, hmapname]
    · rw [← hl', updateTeam_fst, hmapname]
  intro order
  induction order with
  | nil =>
    intro state st' reps hok
    unfold ffa at hok
    simp only [Except.ok.injEq, Prod.mk.injEq] at hok
    obtain ⟨-, hreps⟩ := hok
    subst hreps
    exact ⟨rfl, fun i hi => by simp at hi⟩
  | cons a rest ih =>
    intro state st' reps hok
    cases rest with
    | nil =>
      unfold ffa at hok
      simp only [Except.ok.injEq, Prod.mk.injEq] at hok
      obtain ⟨-, hreps⟩ := hok
      subst hreps
      exact ⟨rfl, fun i hi => by simp at hi⟩
    | cons b rest' =>
      unfold ffa at hok
      split at hok
      · exact absurd hok (by simp)
      · rename_i ta' tb' rep hrt
        split at hok
        · exact absurd hok (by simp)
        · rename_i st2 reps2 hff
          simp only [Except.ok.injEq, Prod.mk.injEq] at hok
          obtain ⟨-, hreps⟩ := hok
          obtain ⟨r, hrsome, hdraw, hwin, hlose, hwnames, hlnames⟩ := hreport hrt
          subst hrsome
          subst hreps
          obtain ⟨hlen2, hcontent⟩ := ih _ _ _ hff
          have hnames : ∀ j, teamNames ((state.set a ta').set b tb') j
              = teamNames state j := by
            intro j
            have hwa : ta'.map Player.name = teamNames state a := by
              rw [hwnames]
              rfl
            have hlb : tb'.map Player.name = teamNames state b := by
              rw [hlnames]
              rfl
            have hb2 : tb'.map Player.name = teamNames (state.set a ta') b := by
              rw [teamNames_set hwa]
              exact hlb
            rw [teamNames_set hb2, teamNames_set hwa]
          constructor
          · simp only [List.length_cons] at hlen2
            simp only [Option.toList_some, List.singleton_append, List.length_cons]
            omega
          · intro i hi
            cases i with
            | zero =>
              refine ⟨?_, ?_, ?_⟩
              · simp only [Option.toList_some, List.singleton_append,
                  List.getD_cons_zero, List.getD_cons_succ]
                exact hdraw
              · simp only [Option.toList_some, List.singleton_append,
                  List.getD_cons_zero]
                exact hwin
              · simp only [Option.toList_some, List.singleton_append,
                  List.getD_cons_zero, List.getD_cons_succ]
                exact hlose
            | succ k =>
              have hk : k + 1 < (b :: rest').length := by
                simpa using hi
              obtain ⟨h1, h2, h3⟩ := hcontent k hk
              rw [hnames] at h2 h3
              refine ⟨?_, ?_, ?_⟩
              · simp only [Option.toList_some, List.singleton_append,
                  List.getD_cons_succ]
                exact h1
              · simp only [Option.toList_some, List.singleton_append,
                  List.getD_cons_succ]
                exact h2
              · simp only [Option.toList_some, List.singleton_append,
                  List.getD_cons_succ]
                exact h3

/-- C3: for a valid call with more than two teams, `rate` sorts the team
indices ascending by rank (`rankOrder` is a sorted permutation of the index
range) and performs exactly `N-1` adjacent pairwise updates in that order:
with a report requested, exactly `N-1` reports come back, report `i` being
the update of sorted pair `(i, i+1)` with `is_draw` true exactly on equal
ranks and the better-ranked team passed as winner. -/
theorem c3_multi_team (e : Env) (teams res : List (List Player)) (ranks : List Int)
    (reps : List EPUpdateReport)
    (hlen : teams.length = ranks.length) (hN : 2 < teams.length)
    (hok : rate e teams ranks true = .ok (res, some reps)) :
    reps.length = teams.length - 1 ∧
    (rankOrder ranks).length = teams.length ∧
    List.Pairwise (fun i j => ranks.getD i 0 ≤ ranks.getD j 0) (rankOrder ranks) ∧
    (rankOrder ranks).Perm (List.range teams.length) ∧
    ∀ i, i + 1 < teams.length →
      (reps.getD i default).is_draw
          = decide (ranks.getD ((rankOrder ranks).getD i 0) 0
              = ranks.getD ((rankOrder ranks).getD (i + 1) 0) 0) ∧
      (reps.getD i default).team_winner
          = (teams.getD ((rankOrder ranks).getD i 0) []).map Player.name ∧
      (reps.getD i default).team_loser
          = (teams.getD ((rankOrder ranks).getD (i + 1) 0) []).map Player.name := by
  have hperm : (rankOrder ranks).Perm (List.range ranks.length) :=
    List.mergeSort_perm _ _
  have hsorted :
      List.Pairwise (fun i j => ranks.getD i 0 ≤ ranks.getD j 0) (rankOrder ranks) := by
    have h := @List.sorted_mergeSort ℕ
      (fun i j => decide (ranks.getD i 0 ≤ ranks.getD j 0))
      (fun a b c h1 h2 => by
        simp only [decide_eq_true_eq] at h1 h2 ⊢
        exact le_trans h1 h2)
      (fun a b => by
        simp only [Bool.or_eq_true, decide_eq_true_eq]
        exact le_total _ _)
      (List.range ranks.length)
    exact h.imp fun hab => by simpa using hab
  have hdriftNames : ∀ j, teamNames (driftTeams e teams) j
      = (teams.getD j []).map Player.name := by
    intro j
    unfold teamNames driftTeams
    rw [List.getD_eq_getElem?_getD, List.getD_eq_getElem?_getD, List.getElem?_map]
    cases teams[j]? with
    | none => rfl
    | some t =>
      simp only [Option.map_some', Option.getD_some]
      rw [List.map_map]
      rfl
  have hOlen : (rankOrder ranks).length = teams.length := by
    rw [hperm.length_eq, List.length_range, hlen]
  unfold rate at hok
  rw [if_neg (not_not_intro hlen)] at hok
  rw [if_neg (by omega : ¬ teams.length < 2)] at hok
  rw [if_pos (by
    show 2 < (driftTeams e teams).length
    unfold driftTeams
    rw [List.length_map]
    exact hN)] at hok
  split at hok
  · exact absurd hok (by simp)
  · rename_i st reps0 hff
    simp only [eq_self_iff_true, if_true, Except.ok.injEq, Prod.mk.injEq,
      Option.some.injEq] at hok
    obtain ⟨-, hreps⟩ := hok
    subst hreps
    obtain ⟨hL, hC⟩ := ffa_reports e ranks (rankOrder ranks) _ _ _ hff
    refine ⟨by rw [hL, hOlen], hOlen, hsorted, hlen ▸ hperm, ?_⟩
    intro i hi
    have hi2 : i + 1 < (rankOrder ranks).length := by rw [hOlen]; exact hi
    obtain ⟨h1, h2, h3⟩ := hC i hi2
    rw [hdriftNames] at h2 h3
    exact ⟨h1, h2, h3⟩

/-- A drawn pairwise update between equal-mean singleton teams when the
calibrated margin is negative: both guarded draw moments are `0`. -/
lemma rate_two_pair_draw_eval (e : Env) (p q : Player) (hmu : p.mu = q.mu)
    (hs : 0 < cArg e [p] [q]) (heps : e.eps < 0) :
    _rate_two_teams e [p] [q] true true =
      .ok ([updatePlayer (Real.sqrt (cArg e [p] [q])) 0 0 1 p],
        [updatePlayer (Real.sqrt (cArg e [p] [q])) 0 0 (-1) q],
        some
          { is_draw := true, eps := e.eps, c := Real.sqrt (cArg e [p] [q]),
            t := 0, v := 0, w := 0,
            team_winner := [p.name], team_loser := [q.name],
            delta_mu := dictInsert (dictInsert [] p.name
              ((updatePlayer (Real.sqrt (cArg e [p] [q])) 0 0 1 p).mu - p.mu)) q.name
              ((updatePlayer (Real.sqrt (cArg e [p] [q])) 0 0 (-1) q).mu - q.mu),
            new_sigma := dictInsert (dictInsert [] p.name
              ((updatePlayer (Real.sqrt (cArg e [p] [q])) 0 0 1 p).sigma)) q.name
              ((updatePlayer (Real.sqrt (cArg e [p] [q])) 0 0 (-1) q).sigma) }) := by
  have hPhiMono : Monotone _Phi :=
    monotone_of_deriv_nonneg (fun x => (hasDerivAt_Phi x).differentiableAt)
      (fun x => by rw [(hasDerivAt_Phi x).deriv]; exact (_phi_pos x).le)
  have hvdraw : ∀ {ε : ℝ}, ε < 0 → _v_draw 0 ε = 0 := by
    intro ε hε
    unfold _v_draw
    rw [if_pos]
    have hle : _Phi (ε - 0) ≤ _Phi (-ε - 0) := by
      apply hPhiMono
      linarith
    have h12 : (0:ℝ) < 1e-12 := by norm_num
    linarith
  have hwdraw : ∀ {ε : ℝ}, ε < 0 → _w_draw 0 ε = 0 := by
    intro ε hε
    unfold _w_draw
    rw [if_pos]
    have hle : _Phi (ε - 0) ≤ _Phi (-ε - 0) := by
      apply hPhiMono
      linarith
    have h12 : (0:ℝ) < 1e-12 := by norm_num
    linarith
  have hc : 0 < Real.sqrt (cArg e [p] [q]) := Real.sqrt_pos.2 hs
  have hepsc : e.eps / Real.sqrt (cArg e [p] [q]) < 0 := div_neg_of_neg_of_pos heps hc
  unfold _rate_two_teams
  rw [if_neg (not_lt.2 hs.le), if_neg ((Real.sqrt_pos.2 hs).ne')]
  have ht : (teamMu [p] - teamMu [q]) / Real.sqrt (cArg e [p] [q]) = 0 := by
    unfold teamMu
    simp [hmu]
  rw [ht]
  simp only [eq_self_iff_true, if_true]
  rw [hvdraw hepsc, hwdraw hepsc]
  rw [updateTeam_single, updateTeam_single]
  rfl

/-- The environment of the C3 witness: `draw_probability = 0`. -/
noncomputable def env0 : Env := mkEnv 25 (25 / 3) (25 / 6) (25 / 300) 0 0

/-- Fresh players of the C3 witness. -/
noncomputable def qA : Player := make_player env0 "A"

/-- Second fresh player of the C3 witness. -/
noncomputable def qB : Player := make_player env0 "B"

/-- Third fresh player of the C3 witness. -/
noncomputable def qC : Player := make_player env0 "C"

/-- Post-drift players of the C3 witness. -/
noncomputable def qA1 : Player := _apply_drift env0 qA

/-- Post-drift second player. -/
noncomputable def qB1 : Player := _apply_drift env0 qB

/-- Post-drift third player. -/
noncomputable def qC1 : Player := _apply_drift env0 qC

/-- Scale of the first drawn pair. -/
noncomputable def c01 : ℝ := Real.sqrt (cArg env0 [qA1] [qB1])

/-- First team after the first drawn pair. -/
noncomputable def qA2 : Player := updatePlayer c01 0 0 1 qA1

/-- Second team after the first drawn pair. -/
noncomputable def qB2 : Player := updatePlayer c01 0 0 (-1) qB1

/-- Scale of the second drawn pair. -/
noncomputable def c12 : ℝ := Real.sqrt (cArg env0 [qB2] [qC1])

/-- Second team after the second drawn pair. -/
noncomputable def qB3 : Player := updatePlayer c12 0 0 1 qB2

/-- Third team after the second drawn pair. -/
noncomputable def qC2 : Player := updatePlayer c12 0 0 (-1) qC1

/-- Report of the first drawn pair. -/
noncomputable def c3rep1 : EPUpdateReport :=
  { is_draw := true, eps := env0.eps, c := c01, t := 0, v := 0, w := 0,
    team_winner := [qA1.name], team_loser := [qB1.name],
    delta_mu := dictInsert (dictInsert [] qA1.name (qA2.mu - qA1.mu)) qB1.name
      (qB2.mu - qB1.mu),
    new_sigma := dictInsert (dictInsert [] qA1.name qA2.sigma) qB1.name qB2.sigma }

/-- Report of the second drawn pair. -/
noncomputable def c3rep2 : EPUpdateReport :=
  { is_draw := true, eps := env0.eps, c := c12, t := 0, v := 0, w := 0,
    team_winner := [qB2.name], team_loser := [qC1.name],
    delta_mu := dictInsert (dictInsert [] qB2.name (qB3.mu - qB2.mu)) qC1.name
      (qC2.mu - qC1.mu),
    new_sigma := dictInsert (dictInsert [] qB2.name qB3.sigma) qC1.name qC2.sigma }

/-- Witness for C3: three fresh single-player teams, all ranks equal, under
the zero-draw-probability environment; the call produces exactly two reports
decomposing the sorted adjacent pairs. -/
theorem c3_multi_team_witness :
    ([[qA], [qB], [qC]] : List (List Player)).length = ([0, 0, 0] : List Int).length ∧
      2 < ([[qA], [qB], [qC]] : List (List Player)).length ∧
      ([c3rep1, c3rep2].length = ([[qA], [qB], [qC]] : List (List Player)).length - 1 ∧
        (rankOrder [0, 0, 0]).length = ([[qA], [qB], [qC]] : List (List Player)).length ∧
        List.Pairwise (fun i j => ([0, 0, 0] : List Int).getD i 0
            ≤ ([0, 0, 0] : List Int).getD j 0) (rankOrder [0, 0, 0]) ∧
        (rankOrder [0, 0, 0]).Perm
          (List.range ([[qA], [qB], [qC]] : List (List Player)).length) ∧
        ∀ i, i + 1 < ([[qA], [qB], [qC]] : List (List Player)).length →
          ([c3rep1, c3rep2].getD i default).is_draw
              = decide (([0, 0, 0] : List Int).getD ((rankOrder [0, 0, 0]).getD i 0) 0
                  = ([0, 0, 0] : List Int).getD ((rankOrder [0, 0, 0]).getD (i + 1) 0) 0) ∧
          ([c3rep1, c3rep2].getD i default).team_winner
              = (([[qA], [qB], [qC]] : List (List Player)).getD
                  ((rankOrder [0, 0, 0]).getD i 0) []).map Player.name ∧
          ([c3rep1, c3rep2].getD i default).team_loser
              = (([[qA], [qB], [qC]] : List (List Player)).getD
                  ((rankOrder [0, 0, 0]).getD (i + 1) 0) []).map Player.name) := by
  have hepsneg : env0.eps < 0 := by
    have h : env0.eps = _draw_margin (25 / 6) 0 := rfl
    rw [h, draw_margin_zero_eval]
    have hs2 : (0:ℝ) < Real.sqrt 2 := Real.sqrt_pos.2 (by norm_num)
    apply mul_neg_of_neg_of_pos
    · apply mul_neg_of_neg_of_pos
      · norm_num
      · exact hs2
    · norm_num
  have hcpair : ∀ p q : Player, 0 < cArg env0 [p] [q] := by
    intro p q
    have hβ : (0:ℝ) < env0.beta := by norm_num [env0, mkEnv]
    have ht : (0:ℝ) ≤ env0.trust := by norm_num [env0, mkEnv]
    unfold cArg teamSig2 perfNoise
    simp only [List.map_cons, List.map_nil, List.sum_cons, List.sum_nil, add_zero]
    nlinarith [mul_self_nonneg p.sigma, mul_self_nonneg q.sigma, mul_pos hβ hβ,
      mul_nonneg ht (mul_self_nonneg p.sigma), mul_nonneg ht (mul_self_nonneg q.sigma)]
  have hqB2mu : qB2.mu = qC1.mu := by
    unfold qB2 updatePlayer
    have h : qB1.mu = qC1.mu := rfl
    simp [h]
  have hpair1 : _rate_two_teams env0 [qA1] [qB1] true true
      = .ok ([qA2], [qB2], some c3rep1) :=
    rate_two_pair_draw_eval env0 qA1 qB1 rfl (hcpair qA1 qB1) hepsneg
  have hpair2 : _rate_two_teams env0 [qB2] [qC1] true true
      = .ok ([qB3], [qC2], some c3rep2) :=
    rate_two_pair_draw_eval env0 qB2 qC1 hqB2mu (hcpair qB2 qC1) hepsneg
  have hffacons : ∀ (state : List (List Player)) (ranks : List Int)
      (a b : ℕ) (rest : List ℕ) {ta' tb' : List Player}
      {rep : Option EPUpdateReport},
      _rate_two_teams env0 (state.getD a []) (state.getD b [])
          (decide (ranks.getD a 0 = ranks.getD b 0)) true = .ok (ta', tb', rep) →
      ffa env0 state ranks (a :: b :: rest) true
        = match ffa env0 ((state.set a ta').set b tb') ranks (b :: rest) true with
          | .error msg => .error msg
          | .ok (st, reps) => .ok (st, rep.toList ++ reps) := by
    intro state ranks a b rest ta' tb' rep h
    conv_lhs => rw [ffa]
    rw [h]
  have hffa : ffa env0 [[qA1], [qB1], [qC1]] [0, 0, 0] [0, 1, 2] true
      = .ok ([[qA2], [qB3], [qC2]], [c3rep1, c3rep2]) := by
    rw [hffacons [[qA1], [qB1], [qC1]] [0, 0, 0] 0 1 [2] hpair1]
    rw [show (([[qA1], [qB1], [qC1]].set 0 [qA2]).set 1 [qB2]) = [[qA2], [qB2], [qC1]]
      from rfl]
    rw [hffacons [[qA2], [qB2], [qC1]] [0, 0, 0] 1 2 [] hpair2]
    rw [show (([[qA2], [qB2], [qC1]].set 1 [qB3]).set 2 [qC2]) = [[qA2], [qB3], [qC2]]
      from rfl]
    rfl
  have hord : rankOrder [0, 0, 0] = [0, 1, 2] := by
    unfold rankOrder
    rw [show ([0, 0, 0] : List Int).length = 3 from rfl,
      show List.range 3 = [0, 1, 2] by decide]
    apply List.mergeSort_of_sorted
    decide
  have hrate : rate env0 [[qA], [qB], [qC]] [0, 0, 0] true
      = .ok ([[qA2], [qB3], [qC2]], some [c3rep1, c3rep2]) := by
    unfold rate
    rw [if_neg (by norm_num), if_neg (by norm_num)]
    rw [if_pos (by norm_num [driftTeams] :
      2 < (driftTeams env0 [[qA], [qB], [qC]]).length)]
    rw [show driftTeams env0 [[qA], [qB], [qC]] = [[qA1], [qB1], [qC1]] from rfl]
    rw [show rankOrder [0, 0, 0] = [0, 1, 2] from hord]
    rw [hffa]
    rfl
  refine ⟨rfl, by norm_num, ?_⟩
  exact c3_multi_team env0 [[qA], [qB], [qC]] [[qA2], [qB3], [qC2]] [0, 0, 0]
    [c3rep1, c3rep2] rfl (by norm_num) hrate

/-! ### Frame property of the environment -/

/-- One method call on a `TrueSkillEnv` object, as it affects the object's
own state. -/
inductive Op where
  | mk_player (name : String)
  | do_rate (teams : List (List Player)) (ranks : List Int) (rr : Bool)

/-- The self-state transition of each method.  `make_player` only allocates
a `Player`; `rate` only mutates the passed players; neither method body
assigns to any field of `self`, so both leave the environment unchanged. -/
noncomputable def stepOp (e : Env) : Op → Env
  | .mk_player _ => e
  | .do_rate _ _ _ => e

/-- Running a sequence of method calls against an environment. -/
noncomputable def runOps (e : Env) (ops : List Op) : Env := ops.foldl stepOp e

/-- C9: after any sequence of `make_player` and `rate` calls, every
configuration field of the environment, including the derived `eps`, equals
its value at construction. -/
theorem c9_env_frame (mu0 sigma0 beta tau draw_probability trust : ℝ)
    (ops : List Op) :
    (runOps (mkEnv mu0 sigma0 beta tau draw_probability trust) ops).mu0 = mu0 ∧
    (runOps (mkEnv mu0 sigma0 beta tau draw_probability trust) ops).sigma0 = sigma0 ∧
    (runOps (mkEnv mu0 sigma0 beta tau draw_probability trust) ops).beta = beta ∧
    (runOps (mkEnv mu0 sigma0 beta tau draw_probability trust) ops).tau = tau ∧
    (runOps (mkEnv mu0 sigma0 beta tau draw_probability trust) ops).draw_probability
        = draw_probability ∧
    (runOps (mkEnv mu0 sigma0 beta tau draw_probability trust) ops).trust = trust ∧
    (runOps (mkEnv mu0 sigma0 beta tau draw_probability trust) ops).eps
        = _draw_margin beta draw_probability := by
  have hid : ∀ (e : Env) (l : List Op), runOps e l = e := by
    intro e l
    induction l with
    | nil => rfl
    | cons op rest ih =>
      cases op with
      | mk_player name =>
        unfold runOps at ih ⊢
        simpa [stepOp] using ih
      | do_rate teams ranks rr =>
        unfold runOps at ih ⊢
        simpa [stepOp] using ih
  rw [hid]
  exact ⟨rfl, rfl, rfl, rfl, rfl, rfl, rfl⟩
